import Mathlib

/-!
Verification development for the `search-highlight` library
(`src/highlight.ts`, `src/utils.ts`).

The DOM-facing code is shallowly embedded:

* strings are `List Char` (`Str`);
* the DOM tree for the shallow-mode pipeline and for highlight removal is
  the inductive `HNode` (text nodes and elements carrying a tag, a class
  and the owning-instance attribute);
* for the deep-search pipeline, where `wrapRangeDeep` mutates `Text` nodes
  that are aliased by the `TextMapping` table, text nodes are identified by
  numeric ids and their (mutable) contents live in a store, mirroring
  JavaScript object identity;
* `RegExp` values are embedded twice, matching the two ways the source
  uses them: as syntax (`RegExpObj`, the `source` string produced by
  `buildMergedRegex`) interpreted by a small parser/matcher for the regex
  fragment the library generates, and as semantics (`Pattern`, a function
  producing the next match at-or-after a position, the interface `exec`,
  `match` and `replace` consume).
-/

/-- Strings of the embedded program: lists of characters. -/
abbrev Str := List Char

/-- Whitespace test backing JavaScript `String.prototype.trim` on the
characters that matter here. -/
def isWsChar (c : Char) : Bool :=
  c = ' ' || c = '\t' || c = '\n' || c = '\r'

/-- `!node.nodeValue.trim()` is false exactly when the node value has a
non-whitespace character; the tree walkers accept a text node iff this
holds. -/
def hasNonWs (s : Str) : Bool :=
  s.any (fun c => !isWsChar c)

/-- The metacharacter class of `escapeRegExp` in `src/utils.ts`:
`/[.*+?^${}()|[\]\\]/`. -/
def isRegexMeta (c : Char) : Bool :=
  c = '.' || c = '*' || c = '+' || c = '?' || c = '^' || c = '$' ||
  c = '\x7b' || c = '\x7d' || c = '(' || c = ')' || c = '|' ||
  c = '[' || c = ']' || c = '\\'

/-- `escapeRegExp` from `src/utils.ts`: prefix every regex metacharacter
with a backslash (`string.replace(/[.*+?^${}()|[\]\\]/g, '\\$&')`). -/
def escapeRegExp : Str → Str
  | [] => []
  | c :: rest =>
    if isRegexMeta c then '\\' :: c :: escapeRegExp rest
    else c :: escapeRegExp rest

/-- One regex match as surfaced by `RegExp.prototype.exec`: the start
index, the length of `match[0]`, and the text of the first capture group
(`$1`). -/
structure RegexMatch where
  start : Nat
  len : Nat
  group1 : Str
deriving Repr, DecidableEq

/-- The semantic face of a (global) `RegExp`: `findFrom s i` is the first
match in `s` at position `≥ i`, the behaviour of `exec` run with
`lastIndex = i`. -/
structure Pattern where
  findFrom : Str → Nat → Option RegexMatch

/-- Basic well-formedness of a pattern: a reported match starts at or
after the requested position and lies inside the string. Every real
`RegExp` satisfies this. -/
def Pattern.WF (p : Pattern) : Prop :=
  ∀ s i m, p.findFrom s i = some m → i ≤ m.start ∧ m.start + m.len ≤ s.length

/-- The §4.1 capture-group contract, semantically: the first capture group
of every match is the whole matched slice.  Patterns built by
`buildMergedRegex` from terms satisfy it; a pre-built `RegExp` need not. -/
def Pattern.CapturesWhole (p : Pattern) : Prop :=
  ∀ s i m, p.findFrom s i = some m → m.group1 = (s.drop m.start).take m.len

/-- Character comparison under the `i` flag (`'gi'`): both sides folded to
lower case; under `'g'` plain equality. -/
def chMatches (ignoreCase : Bool) (a b : Char) : Bool :=
  if ignoreCase then a.toLower = b.toLower else a = b

/-- Does the literal term `t` occur in `s` starting at position `i`
(with optional case folding)?  This is what one alternative of the merged
regex `(t1|t2|...)` tests at a position. -/
def termAt (ignoreCase : Bool) (s : Str) (i : Nat) (t : Str) : Bool :=
  ((s.drop i).take t.length).length = t.length &&
  (((s.drop i).take t.length).zip t).all (fun cd => chMatches ignoreCase cd.1 cd.2)

/-- First term of the alternation matching at position `i` (JavaScript
alternation is first-alternative-wins, not longest-match). -/
def firstTermAt (ignoreCase : Bool) (terms : List Str) (s : Str) (i : Nat) : Option Str :=
  terms.find? (fun t => termAt ignoreCase s i t)

/-- Position scan of the merged literal-alternation regex: try each
position from `i` upward, succeed with the first alternative that matches
there.  Fuel-indexed; `litFindFrom` supplies enough fuel for the whole
string. -/
def litGo (ignoreCase : Bool) (terms : List Str) (s : Str) : Nat → Nat → Option RegexMatch
  | 0, _ => none
  | fuel + 1, i =>
    match firstTermAt ignoreCase terms s i with
    | some t => some ⟨i, t.length, (s.drop i).take t.length⟩
    | none => if i < s.length then litGo ignoreCase terms s fuel (i + 1) else none

/-- `exec` semantics of the regex `buildMergedRegex` builds from literal
terms: first match at a position `≥ i`; `none` once `lastIndex` exceeds
the string length. -/
def litFindFrom (ignoreCase : Bool) (terms : List Str) (s : Str) (i : Nat) : Option RegexMatch :=
  if s.length < i then none else litGo ignoreCase terms s (s.length + 1 - i) i

/-- The literal-alternation pattern as a `Pattern`. -/
def litPattern (ignoreCase : Bool) (terms : List Str) : Pattern :=
  ⟨litFindFrom ignoreCase terms⟩

theorem termAt_le (ic : Bool) (s : Str) (i : Nat) (t : Str)
    (hi : i ≤ s.length) (h : termAt ic s i t = true) : i + t.length ≤ s.length := by
  unfold termAt at h
  rw [Bool.and_eq_true] at h
  have h1 : ((s.drop i).take t.length).length = t.length := of_decide_eq_true h.1
  rw [List.length_take, List.length_drop] at h1
  omega

theorem litGo_start_ge (ic : Bool) (terms : List Str) (s : Str) :
    ∀ fuel i m, i ≤ s.length → litGo ic terms s fuel i = some m →
      i ≤ m.start ∧ m.start + m.len ≤ s.length := by
  intro fuel
  induction fuel with
  | zero => intro i m _ h; simp [litGo] at h
  | succ n ih =>
    intro i m hi h
    rw [litGo] at h
    cases hf : firstTermAt ic terms s i with
    | some t =>
      rw [hf] at h
      have ht : termAt ic s i t = true := by
        have := List.find?_some (by simpa [firstTermAt] using hf)
        simpa using this
      have hle := termAt_le ic s i t hi ht
      cases h
      exact ⟨Nat.le_refl _, hle⟩
    | none =>
      rw [hf] at h
      by_cases hlt : i < s.length
      · simp only [hlt, if_true] at h
        have := ih (i + 1) m hlt h
        omega
      · simp [hlt] at h

theorem litPattern_wf (ic : Bool) (terms : List Str) : (litPattern ic terms).WF := by
  intro s i m h
  simp only [litPattern, litFindFrom] at h
  by_cases hle : s.length < i
  · simp [hle] at h
  · simp only [hle, if_false] at h
    exact litGo_start_ge ic terms s _ i m (by omega) h

theorem litGo_group1 (ic : Bool) (terms : List Str) (s : Str) :
    ∀ fuel i m, litGo ic terms s fuel i = some m →
      m.group1 = (s.drop m.start).take m.len := by
  intro fuel
  induction fuel with
  | zero => intro i m h; simp [litGo] at h
  | succ n ih =>
    intro i m h
    rw [litGo] at h
    cases hf : firstTermAt ic terms s i with
    | some t =>
      rw [hf] at h
      cases h
      rfl
    | none =>
      rw [hf] at h
      by_cases hlt : i < s.length
      · simp only [hlt, if_true] at h
        exact ih (i + 1) m h
      · simp [hlt] at h

theorem litPattern_capturesWhole (ic : Bool) (terms : List Str) :
    (litPattern ic terms).CapturesWhole := by
  intro s i m h
  simp only [litPattern, litFindFrom] at h
  by_cases hle : s.length < i
  · simp [hle] at h
  · simp only [hle, if_false] at h
    exact litGo_group1 ic terms s _ i m h

/-- Cursor advance of `String.prototype.replace` / `matchAll` with a
global regex: past the match, or by one position after a zero-length
match (`AdvanceStringIndex`). -/
def matchStepPos (m : RegexMatch) : Nat :=
  m.start + max m.len 1

/-- Match enumeration as performed by `String.prototype.replace` and
`String.prototype.match` with a global regex: repeated `exec`, advancing
by at least one position after an empty match.  Fuel-indexed; with fuel
`s.length + 2` the enumeration is complete for any well-formed pattern. -/
def matchSpansGo (p : Pattern) (s : Str) : Nat → Nat → List RegexMatch
  | 0, _ => []
  | fuel + 1, pos =>
    match p.findFrom s pos with
    | none => []
    | some m => m :: matchSpansGo p s fuel (matchStepPos m)

/-- All matches of a global pattern in `s`, as `replace`/`match` see
them. -/
def matchSpans (p : Pattern) (s : Str) : List RegexMatch :=
  matchSpansGo p s (s.length + 2) 0

/-- The `while ((match = regex.exec(text)) !== null)` loop of
`searchAndHighlightDeep` (src/highlight.ts lines 199-209): `lastIndex` is
set to `match.index + match[0].length` and — unlike `replace` — is NOT
advanced further after a zero-length match.  `none` means the fuel ran
out, i.e. within `fuel` iterations the loop has not terminated. -/
def execLoopSpans (p : Pattern) (s : Str) : Nat → Nat → Option (List RegexMatch)
  | 0, _ => none
  | fuel + 1, pos =>
    match p.findFrom s pos with
    | none => some []
    | some m => (execLoopSpans p s fuel (m.start + m.len)).map (m :: ·)

/-- Spans are usable for the shallow rewrite from cursor `c`: each starts
at or after the cursor, lies in the string, captures its whole matched
slice in group 1, and the remaining spans are usable from the advanced
cursor. -/
def goodSpans (s : Str) : Nat → List RegexMatch → Prop
  | _, [] => True
  | c, m :: rest =>
    c ≤ m.start ∧ m.start + m.len ≤ s.length ∧
    m.group1 = (s.drop m.start).take m.len ∧
    goodSpans s (matchStepPos m) rest

theorem goodSpans_mono (s : Str) (c c' : Nat) (l : List RegexMatch)
    (hcc : c ≤ c') (h : goodSpans s c' l) : goodSpans s c l := by
  cases l with
  | nil => trivial
  | cons m rest =>
    obtain ⟨h1, h2, h3, h4⟩ := h
    exact ⟨Nat.le_trans hcc h1, h2, h3, h4⟩

theorem matchSpansGo_good (p : Pattern) (s : Str) (hwf : p.WF)
    (hcw : p.CapturesWhole) :
    ∀ fuel pos, goodSpans s pos (matchSpansGo p s fuel pos) := by
  intro fuel
  induction fuel with
  | zero => intro pos; trivial
  | succ n ih =>
    intro pos
    rw [matchSpansGo]
    cases hf : p.findFrom s pos with
    | none => trivial
    | some m =>
      have hw := hwf s pos m hf
      exact ⟨hw.1, hw.2, hcw s pos m hf, ih (matchStepPos m)⟩

theorem matchSpans_good (p : Pattern) (s : Str) (hwf : p.WF)
    (hcw : p.CapturesWhole) : goodSpans s 0 (matchSpans p s) :=
  matchSpansGo_good p s hwf hcw _ 0

/-- A DOM node for the shallow-mode pipeline and for `removeHighlights`:
a text node, or an element with tag name, class name, the value of the
owning-instance attribute (`data-highlighter-instance`) when present, and
children. -/
inductive HNode where
  | htext : Str → HNode
  | helem : Str → Str → Option Str → List HNode → HNode

/-- Marker configuration of one `Highlighter` instance: `options.tagName`,
`options.className` and the instance id string written into the
instance attribute by `wrapNode` / `searchAndHighlight`. -/
structure MarkerCfg where
  tag : Str
  cls : Str
  inst : Str
deriving Repr, DecidableEq

mutual

/-- `textContent` of a node: concatenation of all descendant text. -/
def textContentN : HNode → Str
  | .htext s => s
  | .helem _ _ _ ch => textContentL ch

/-- `textContent` across a list of sibling nodes. -/
def textContentL : List HNode → Str
  | [] => []
  | n :: ns => textContentN n ++ textContentL ns

end

/-- The nodes `range.createContextualFragment(newHTML)` produces from the
output of `text.replace(regex, "<tag class=... inst=...>$1</tag>")` in
`searchAndHighlight` (src/highlight.ts lines 156-170): the unmatched
slices stay as text nodes and each match becomes a marker element whose
content is the text of capture group 1. -/
def fragGo (cfg : MarkerCfg) (s : Str) : List RegexMatch → Nat → List HNode
  | [], c => if c < s.length then [.htext (s.drop c)] else []
  | m :: rest, c =>
    let piece := (s.drop c).take (m.start - c)
    let marker : HNode :=
      .helem cfg.tag cfg.cls (some cfg.inst)
        (if m.group1 = [] then [] else [.htext m.group1])
    (if piece = [] then [] else [.htext piece]) ++
      marker :: fragGo cfg s rest (m.start + m.len)

/-- ASCII letter test (HTML tag-open disambiguation: `<` starts a tag
only when followed by a letter). -/
def isAsciiLetter (c : Char) : Bool :=
  ('a' ≤ c && c ≤ 'z') || ('A' ≤ c && c ≤ 'Z')

/-- Characters allowed in tag and attribute names by the embedded
parser. -/
def isNameChar (c : Char) : Bool :=
  isAsciiLetter c || c.isDigit || c = '-'

/-- HTML whitespace (the kinds occurring in the generated markup). -/
def isHtmlWs (c : Char) : Bool :=
  c = ' ' || c = '\n' || c = '\t' || c = '\r'

/-- The default `instanceAttributeName` the library writes into generated
markup. -/
def instanceAttributeName : Str := "data-highlighter-instance".toList

/-- The whitespace-and-attribute section of the replacement template's
opening tag (src/highlight.ts lines 161-163), ending with the `>`. -/
def attrTail (cfg : MarkerCfg) : Str :=
  ' ' :: '\n' :: "          class=\"".toList ++ cfg.cls ++
    '"' :: ' ' :: '\n' :: "          ".toList ++ instanceAttributeName ++
    '=' :: '"' :: cfg.inst ++ ['"', '>']

/-- The replacement template of `searchAndHighlight` (src/highlight.ts
lines 161-163) around the capture-group text `$1`: the opening tag with
its literal whitespace and quoted attributes. -/
def openTagStr (cfg : MarkerCfg) : Str :=
  '<' :: cfg.tag ++ attrTail cfg

/-- The closing tag of the replacement template. -/
def closeTagStr (cfg : MarkerCfg) : Str :=
  '<' :: '/' :: cfg.tag ++ ['>']

/-- The string `text.replace(regex, template)` produces: unmatched slices
verbatim, each match replaced by open tag ++ `$1` ++ close tag, the tail
appended from the last match's end. -/
def newHTMLgo (cfg : MarkerCfg) (s : Str) : List RegexMatch → Nat → Str
  | [], c => s.drop c
  | m :: rest, c =>
    (s.drop c).take (m.start - c) ++ openTagStr cfg ++ m.group1 ++
      closeTagStr cfg ++ newHTMLgo cfg s rest (m.start + m.len)

/-- `newHTML` for one matched text node. -/
def newHTML (cfg : MarkerCfg) (p : Pattern) (s : Str) : Str :=
  newHTMLgo cfg s (matchSpans p s) 0

/-- Attribute-list parser of the fragment parser: after the tag name,
skip whitespace and read `name="value"` pairs until the closing `>` is
consumed; returns the pairs and the input after the `>`. -/
def parseAttrsGo : Nat → Str → List (Str × Str) × Str
  | 0, s => ([], s)
  | fuel + 1, s =>
    match s.dropWhile isHtmlWs with
    | [] => ([], [])
    | c :: r =>
      if c = '>' then ([], r)
      else
        let name := (c :: r).takeWhile isNameChar
        let r1 := (c :: r).dropWhile isNameChar
        if name = [] then parseAttrsGo fuel r
        else
          match r1 with
          | '=' :: '"' :: r5 =>
            let v := r5.takeWhile (fun d => !(d = '"'))
            let r6 := r5.dropWhile (fun d => !(d = '"'))
            let res := parseAttrsGo fuel (r6.drop 1)
            ((name, v) :: res.1, res.2)
          | '=' :: r3 =>
            let v := r3.takeWhile (fun d => !(isHtmlWs d || d = '>'))
            let res := parseAttrsGo fuel (r3.dropWhile (fun d => !(isHtmlWs d || d = '>')))
            ((name, v) :: res.1, res.2)
          | _ =>
            let res := parseAttrsGo fuel r1
            ((name, []) :: res.1, res.2)

/-- Attribute-list parser with sufficient internal fuel. -/
def parseAttrs (s : Str) : List (Str × Str) × Str :=
  parseAttrsGo (s.length + 1) s

/-- Consume a close tag (`</name>`) at the head of the input, if any;
the close tag itself produces no node. -/
def consumeClose (s : Str) : Str :=
  match s with
  | a :: b :: r =>
    if a = '<' && b = '/' then (r.dropWhile (fun c => !(c = '>'))).drop 1 else s
  | _ => s

/-- Build the element node a parsed tag yields: the `class` attribute
becomes the className (empty when absent) and the instance attribute's
value, when present, becomes the owning-instance value. -/
def mkElem (tag : Str) (attrs : List (Str × Str)) (children : List HNode) : HNode :=
  .helem tag
    (((attrs.find? (fun a => a.1 = "class".toList)).map (fun a => a.2)).getD [])
    ((attrs.find? (fun a => a.1 = instanceAttributeName)).map (fun a => a.2))
    children

/-- Pending text becomes a text node; empty pending text yields none. -/
def flushText (acc : Str) : List HNode :=
  if acc = [] then [] else [.htext acc]

/-- The fragment parser modelling `range.createContextualFragment`:
text runs become text nodes; `<` followed by a letter opens an element
whose children run to the matching close tag or the end of input
(auto-close); `</...>` closes; a `<` not followed by a letter is literal
text.  Character-entity decoding (`&...;`) is not modelled — every
theorem about this parser assumes its input contains no `&`. -/
def parseNodesF : Nat → Str → Str → List HNode × Str
  | 0, acc, s => (flushText acc, s)
  | fuel + 1, acc, s =>
    match s with
    | [] => (flushText acc, [])
    | c :: rest =>
      if c = '<' then
        match rest with
        | [] => (flushText (acc ++ ['<']), [])
        | d :: _ =>
          if d = '/' then (flushText acc, c :: rest)
          else if isAsciiLetter d then
            let tag := rest.takeWhile isNameChar
            let afterName := rest.dropWhile isNameChar
            let at1 := parseAttrs afterName
            let ch1 := parseNodesF fuel [] at1.2
            let cont := parseNodesF fuel [] (consumeClose ch1.2)
            (flushText acc ++ mkElem tag at1.1 ch1.1 :: cont.1, cont.2)
          else parseNodesF fuel (acc ++ ['<']) rest
      else parseNodesF fuel (acc ++ [c]) rest

/-- `createContextualFragment` on a whole string. -/
def parseFragment (s : Str) : List HNode :=
  (parseNodesF (s.length + 1) [] s).1

/-- Replacement fragment for one matched text node in shallow mode:
the parse of the `replace` output. -/
def fragNodes (cfg : MarkerCfg) (p : Pattern) (s : Str) : List HNode :=
  parseFragment (newHTML cfg p s)

/-- A string free of the markup-significant characters `<` and `&`, the
fragment on which re-parsing a raw string as HTML is the identity on
text. -/
def noMarkupStr (s : Str) : Bool :=
  s.all (fun c => !(c = '<') && !(c = '&'))

mutual

/-- No text leaf below the node contains `<` or `&`. -/
def noMarkupN : HNode → Bool
  | .htext s => noMarkupStr s
  | .helem _ _ _ ch => noMarkupL ch

/-- `noMarkupN` across a sibling list. -/
def noMarkupL : List HNode → Bool
  | [] => true
  | n :: ns => noMarkupN n && noMarkupL ns

end

/-- A marker configuration the generated markup round-trips through the
parser: a non-empty all-letter tag name and quote-free class and
instance values.  The library defaults satisfy this. -/
def cfgOK (cfg : MarkerCfg) : Bool :=
  !cfg.tag.isEmpty && cfg.tag.all isAsciiLetter &&
  cfg.cls.all (fun c => !(c = '"')) && cfg.inst.all (fun c => !(c = '"'))

mutual

/-- `searchAndHighlight` (src/highlight.ts lines 139-171) restricted to
one node: the tree walker accepts every text node whose value has a
non-whitespace character, keeps those on which the regex matches, and
replaces each by its markup fragment.  All collected nodes are distinct,
so replacing them one by one equals this simultaneous rewrite. -/
def shallowNode (cfg : MarkerCfg) (p : Pattern) : HNode → List HNode
  | .htext s =>
    if hasNonWs s && (p.findFrom s 0).isSome then fragNodes cfg p s
    else [.htext s]
  | .helem t c a ch => [.helem t c a (shallowList cfg p ch)]

/-- Shallow rewrite of a sibling list. -/
def shallowList (cfg : MarkerCfg) (p : Pattern) : List HNode → List HNode
  | [] => []
  | n :: ns => shallowNode cfg p n ++ shallowList cfg p ns

end

/-- `searchAndHighlight` on a container element. -/
def searchAndHighlight (cfg : MarkerCfg) (p : Pattern) : HNode → HNode
  | .htext s => .htext s
  | .helem t c a ch => .helem t c a (shallowList cfg p ch)

/-- One level of `Node.normalize()`: drop empty text nodes and merge
adjacent text nodes in a sibling list. -/
def mergeTexts : List HNode → List HNode
  | [] => []
  | .htext s :: rest =>
    match mergeTexts rest with
    | .htext t :: r => if s ++ t = [] then r else .htext (s ++ t) :: r
    | r => if s = [] then r else .htext s :: r
  | .helem t c a ch :: rest => .helem t c a ch :: mergeTexts rest

mutual

/-- `Node.normalize()`: recursively remove empty text nodes and merge
adjacent text nodes in the whole subtree. -/
def normalizeNode : HNode → HNode
  | .htext s => .htext s
  | .helem t c a ch => .helem t c a (mergeTexts (normalizeList ch))

/-- `normalize` mapped over children. -/
def normalizeList : List HNode → List HNode
  | [] => []
  | n :: ns => normalizeNode n :: normalizeList ns

end

/-- Is this element a Marker of the given class and instance, i.e. does it
match the removal selector `.className[instanceAttributeName="id"]`? -/
def isMarker (cfg : MarkerCfg) : HNode → Bool
  | .htext _ => false
  | .helem _ c a _ => c = cfg.cls && a = some cfg.inst

mutual

/-- Effect of `removeHighlights` (src/highlight.ts lines 90-106) on one
node: a selected Marker is replaced by its (recursively processed)
children; the boolean reports whether a Marker was unwrapped at this
level, in which case the real code runs `parent.normalize()` on the
enclosing element. -/
def remNode (cfg : MarkerCfg) : HNode → List HNode × Bool
  | .htext s => ([.htext s], false)
  | .helem t c a ch =>
    let r := remList cfg ch
    if c = cfg.cls && a = some cfg.inst then (r.1, true)
    else
      ([if r.2 then normalizeNode (.helem t c a r.1) else .helem t c a r.1], false)

/-- `removeHighlights` across a sibling list; the boolean is true when a
Marker was unwrapped directly in this list. -/
def remList (cfg : MarkerCfg) : List HNode → List HNode × Bool
  | [] => ([], false)
  | n :: ns =>
    let x := remNode cfg n
    let y := remList cfg ns
    (x.1 ++ y.1, x.2 || y.2)

end

/-- `removeHighlights` scoped to one container element (the selected
Markers all lie under it): unwrap every Marker matching
`.className[attr="instanceId"]` and normalize each Marker's parent. -/
def removeHighlights (cfg : MarkerCfg) : HNode → HNode
  | .htext s => .htext s
  | .helem t c a ch =>
    let r := remList cfg ch
    if r.2 then normalizeNode (.helem t c a r.1) else .helem t c a r.1

mutual

/-- All Markers of the given class and instance in the subtree, document
order, nested ones included. -/
def collectMarkersN (cfg : MarkerCfg) : HNode → List HNode
  | .htext _ => []
  | .helem t c a ch =>
    (if c = cfg.cls && a = some cfg.inst then [.helem t c a ch] else []) ++
      collectMarkersL cfg ch

/-- Marker collection across a sibling list. -/
def collectMarkersL (cfg : MarkerCfg) : List HNode → List HNode
  | [] => []
  | n :: ns => collectMarkersN cfg n ++ collectMarkersL cfg ns

end

@[simp] theorem textContentN_htext (s : Str) : textContentN (.htext s) = s := by
  rw [textContentN]

@[simp] theorem textContentN_helem (t c : Str) (a : Option Str) (ch : List HNode) :
    textContentN (.helem t c a ch) = textContentL ch := by
  rw [textContentN]

@[simp] theorem textContentL_nil : textContentL [] = [] := by
  rw [textContentL]

@[simp] theorem textContentL_cons (n : HNode) (ns : List HNode) :
    textContentL (n :: ns) = textContentN n ++ textContentL ns := by
  rw [textContentL]

theorem textContentL_append (l1 l2 : List HNode) :
    textContentL (l1 ++ l2) = textContentL l1 ++ textContentL l2 := by
  induction l1 with
  | nil => simp
  | cons n ns ih => simp [ih]

theorem textContentL_mergeTexts (l : List HNode) :
    textContentL (mergeTexts l) = textContentL l := by
  induction l with
  | nil => rfl
  | cons n ns ih =>
    cases n with
    | htext s =>
      rw [mergeTexts]
      cases hm : mergeTexts ns with
      | nil =>
        rw [hm] at ih
        by_cases hs : s = [] <;> simp [hs, ← ih]
      | cons m r =>
        cases m with
        | htext t =>
          rw [hm] at ih
          by_cases hst : s ++ t = []
          · obtain ⟨hs, ht⟩ := List.append_eq_nil.mp hst
            simp only [hst, if_true, textContentL_cons]
            rw [← ih]
            simp [hs, ht]
          · simp only [hst, if_false, textContentL_cons]
            rw [← ih]
            simp [textContentL_cons]
        | helem t2 c2 a2 ch2 =>
          rw [hm] at ih
          by_cases hs : s = [] <;>
            · simp only [hs, if_true, if_false, textContentL_cons]
              rw [← ih]
              simp [hs]
    | helem t c a ch =>
      rw [mergeTexts]
      simp [ih]

mutual

theorem textContentN_normalize (n : HNode) :
    textContentN (normalizeNode n) = textContentN n := by
  cases n with
  | htext s => rfl
  | helem t c a ch =>
    rw [normalizeNode]
    simp only [textContentN_helem]
    rw [textContentL_mergeTexts, textContentL_normalize ch]

theorem textContentL_normalize (l : List HNode) :
    textContentL (normalizeList l) = textContentL l := by
  cases l with
  | nil => rfl
  | cons n ns =>
    rw [normalizeList]
    simp only [textContentL_cons]
    rw [textContentN_normalize n, textContentL_normalize ns]

end

mutual

theorem textContent_remNode (cfg : MarkerCfg) (n : HNode) :
    textContentL (remNode cfg n).1 = textContentN n := by
  cases n with
  | htext s => simp [remNode]
  | helem t c a ch =>
    rw [remNode]
    by_cases hm : (decide (c = cfg.cls) && decide (a = some cfg.inst)) = true
    · simp only [hm, if_true]
      simp only [textContentN_helem]
      exact textContent_remList cfg ch
    · simp only [Bool.not_eq_true] at hm
      simp only [hm, Bool.false_eq_true, if_false]
      by_cases hb : (remList cfg ch).2 = true
      · simp only [hb, if_true, textContentL_cons, textContentL_nil,
          textContentN_normalize, textContentN_helem, List.append_nil]
        exact textContent_remList cfg ch
      · simp only [Bool.not_eq_true] at hb
        simp only [hb, Bool.false_eq_true, if_false, textContentL_cons,
          textContentL_nil, textContentN_helem, List.append_nil]
        exact textContent_remList cfg ch

theorem textContent_remList (cfg : MarkerCfg) (l : List HNode) :
    textContentL (remList cfg l).1 = textContentL l := by
  cases l with
  | nil => rfl
  | cons n ns =>
    rw [remList]
    simp only [textContentL_cons]
    rw [textContentL_append, textContent_remNode cfg n, textContent_remList cfg ns]

end

theorem textContent_removeHighlights (cfg : MarkerCfg) (n : HNode) :
    textContentN (removeHighlights cfg n) = textContentN n := by
  cases n with
  | htext s => rfl
  | helem t c a ch =>
    rw [removeHighlights]
    by_cases hb : (remList cfg ch).2 = true
    · simp only [hb, if_true, textContentN_normalize, textContentN_helem]
      exact textContent_remList cfg ch
    · simp only [Bool.not_eq_true] at hb
      simp only [hb, Bool.false_eq_true, if_false, textContentN_helem]
      exact textContent_remList cfg ch

theorem fragGo_text (cfg : MarkerCfg) (s : Str) :
    ∀ spans c, goodSpans s c spans →
      textContentL (fragGo cfg s spans c) = s.drop c := by
  intro spans
  induction spans with
  | nil =>
    intro c _
    rw [fragGo]
    by_cases hc : c < s.length
    · simp [hc]
    · simp only [hc, if_false, textContentL_nil]
      rw [List.drop_eq_nil_of_le (by omega)]
  | cons m rest ih =>
    intro c hg
    obtain ⟨h1, h2, h3, h4⟩ := hg
    rw [fragGo]
    have hrec : textContentL (fragGo cfg s rest (m.start + m.len)) =
        s.drop (m.start + m.len) := by
      refine ih _ (goodSpans_mono s _ _ rest ?_ h4)
      simp only [matchStepPos]
      omega
    have hsplit2 : (s.drop m.start).take m.len ++ s.drop (m.start + m.len) =
        s.drop m.start := by
      conv_rhs => rw [← List.take_append_drop m.len (s.drop m.start)]
      rw [List.drop_drop]
    have hsplit1 : (s.drop c).take (m.start - c) ++ s.drop m.start = s.drop c := by
      conv_rhs => rw [← List.take_append_drop (m.start - c) (s.drop c)]
      rw [List.drop_drop]
      congr 2
      omega
    have hpiece : textContentL
        (if (s.drop c).take (m.start - c) = [] then []
         else [.htext ((s.drop c).take (m.start - c))]) =
        (s.drop c).take (m.start - c) := by
      by_cases hp : (s.drop c).take (m.start - c) = [] <;> simp [hp]
    have hmark : textContentL
        (if m.group1 = [] then [] else [HNode.htext m.group1]) = m.group1 := by
      by_cases hp : m.group1 = [] <;> simp [hp]
    rw [textContentL_append, hpiece]
    simp only [textContentL_cons, textContentN_helem]
    rw [hmark, hrec, h3, hsplit2]
    exact hsplit1

/-- `takeWhile`/`dropWhile` on an append whose first part satisfies the
predicate throughout and whose second part is empty or starts with a
failing character. -/
theorem takeWhile_append_pref (p : Char → Bool) (t : Str) :
    ∀ r, t.all p = true → (∀ c cs, r = c :: cs → p c = false) →
      (t ++ r).takeWhile p = t ∧ (t ++ r).dropWhile p = r := by
  induction t with
  | nil =>
    intro r _ hr
    cases r with
    | nil => exact ⟨rfl, rfl⟩
    | cons c cs =>
      have hc := hr c cs rfl
      simp [List.takeWhile_cons, List.dropWhile_cons, hc]
  | cons a t2 ih =>
    intro r ht hr
    rw [List.all_cons, Bool.and_eq_true] at ht
    have h2 := ih r ht.2 hr
    constructor
    · simp only [List.cons_append, List.takeWhile_cons, ht.1, if_true, h2.1]
    · simp only [List.cons_append, List.dropWhile_cons, ht.1, if_true, h2.2]

/-- A Boolean negation certifies the negated proposition. -/
theorem bnot_true_ne {p : Prop} [Decidable p] (h : (!(decide p)) = true) : ¬ p := by
  cases hd : decide p with
  | false => exact of_decide_eq_false hd
  | true => rw [hd] at h; exact absurd h (by decide)

/-- A Boolean negation flips the underlying value. -/
theorem bnot_true_false {b : Bool} (h : (!b) = true) : b = false := by
  cases b with
  | false => rfl
  | true => exact absurd h (by decide)

/-- A character satisfying a Boolean class is distinct from any character
outside it. -/
theorem pred_ne_of_true_false (p : Char → Bool) (c d : Char)
    (hc : p c = true) (hd : p d = false) : ¬ c = d := by
  intro he
  rw [he, hd] at hc
  exact Bool.noConfusion hc

/-- Letters are name characters. -/
theorem isNameChar_of_letter (c : Char) (h : isAsciiLetter c = true) :
    isNameChar c = true := by
  rw [isNameChar, h]
  rfl

/-- All-letter strings consist of name characters. -/
theorem all_isNameChar_of_letters (t : Str) (h : t.all isAsciiLetter = true) :
    t.all isNameChar = true := by
  rw [List.all_eq_true] at h ⊢
  intro x hx
  exact isNameChar_of_letter x (h x hx)

/-- All-letter strings avoid any fixed non-letter character. -/
theorem all_ne_of_letters (t : Str) (d : Char) (hd : isAsciiLetter d = false)
    (h : t.all isAsciiLetter = true) : t.all (fun c => !(c = d)) = true := by
  rw [List.all_eq_true] at h ⊢
  intro x hx
  have hne := pred_ne_of_true_false isAsciiLetter x d (h x hx) hd
  simp [hne]

/-- `all` survives dropping a prefix. -/
theorem all_drop (p : Char → Bool) (s : Str) (h : s.all p = true) (c : Nat) :
    (s.drop c).all p = true := by
  rw [List.all_eq_true] at h ⊢
  intro x hx
  exact h x (List.mem_of_mem_drop hx)

/-- `all` restricted to a contiguous slice. -/
theorem all_drop_take (p : Char → Bool) (s : Str) (h : s.all p = true)
    (c k : Nat) : ((s.drop c).take k).all p = true := by
  rw [List.all_eq_true] at h ⊢
  intro x hx
  exact h x (List.mem_of_mem_drop (List.mem_of_mem_take hx))

/-- A markup-free string contains no `<`. -/
theorem noMarkupStr_no_lt (s : Str) (h : noMarkupStr s = true) :
    s.all (fun c => !(c = '<')) = true := by
  rw [noMarkupStr, List.all_eq_true] at h
  rw [List.all_eq_true]
  intro x hx
  have h2 := h x hx
  simp only [Bool.and_eq_true] at h2
  exact h2.1

/-- The fragment parser copies a markup-free prefix into the text
accumulator verbatim. -/
theorem parseNodesF_shift (t : Str) :
    ∀ fuel acc u, t.all (fun c => !(c = '<')) = true → t.length < fuel →
      parseNodesF fuel acc (t ++ u) = parseNodesF (fuel - t.length) (acc ++ t) u := by
  induction t with
  | nil =>
    intro fuel acc u _ _
    simp
  | cons a t2 ih =>
    intro fuel acc u hall h
    rw [List.all_cons, Bool.and_eq_true] at hall
    have ha : ¬ a = '<' := by
      intro he
      rw [he] at hall
      exact absurd hall.1 (by decide)
    obtain ⟨f, rfl⟩ : ∃ f, fuel = f + 1 := ⟨fuel - 1, by omega⟩
    have hlt2 : t2.length < f := by
      rw [List.length_cons] at h
      omega
    rw [List.cons_append]
    simp only [parseNodesF, ha, if_false]
    rw [ih f (acc ++ [a]) u hall.2 hlt2]
    rw [List.length_cons, Nat.add_sub_add_right]
    rw [List.append_assoc, List.singleton_append]

/-- Markup-free input parses to its flush as plain text. -/
theorem parseNodesF_text (t : Str) (fuel : Nat) (acc : Str)
    (hall : t.all (fun c => !(c = '<')) = true) (h : t.length < fuel) :
    parseNodesF fuel acc t = (flushText (acc ++ t), []) := by
  have h1 := parseNodesF_shift t fuel acc [] hall h
  rw [List.append_nil] at h1
  rw [h1]
  obtain ⟨f, hf⟩ : ∃ f, fuel - t.length = f + 1 := ⟨fuel - t.length - 1, by omega⟩
  rw [hf, parseNodesF]

/-- The parser yields control at a close tag, leaving it unconsumed. -/
theorem parseNodesF_close (fuel : Nat) (acc r : Str) (h : 0 < fuel) :
    parseNodesF fuel acc ('<' :: '/' :: r) = (flushText acc, '<' :: '/' :: r) := by
  obtain ⟨f, rfl⟩ : ∃ f, fuel = f + 1 := ⟨fuel - 1, by omega⟩
  rfl

/-- `attrTail` begins with a space. -/
theorem attrTail_eq_cons (cfg : MarkerCfg) : ∃ t, attrTail cfg = ' ' :: t :=
  ⟨_, rfl⟩

/-- The attribute parser reads one `name="value"` pair written after the
template's whitespace, then continues past it. -/
theorem parseAttrsGo_seg (n0 : Char) (nm1 v rest : Str)
    (hn0 : ((isNameChar n0 && !isHtmlWs n0) && !(n0 = '>')) = true)
    (hnm : nm1.all isNameChar = true)
    (hv : v.all (fun c => !(c = '"')) = true) (f : Nat) :
    parseAttrsGo (f + 1)
      (" \n          ".toList ++ (n0 :: (nm1 ++ ('=' :: ('"' :: (v ++ ('"' :: rest))))))) =
      ((n0 :: nm1, v) :: (parseAttrsGo f rest).1, (parseAttrsGo f rest).2) := by
  rw [Bool.and_eq_true, Bool.and_eq_true] at hn0
  have hname : isNameChar n0 = true := hn0.1.1
  have hws : isHtmlWs n0 = false := bnot_true_false hn0.1.2
  have hgt : ¬ n0 = '>' := bnot_true_ne hn0.2
  rw [parseAttrsGo]
  have hd : (" \n          ".toList ++
      (n0 :: (nm1 ++ ('=' :: ('"' :: (v ++ ('"' :: rest))))))).dropWhile isHtmlWs =
      n0 :: (nm1 ++ ('=' :: ('"' :: (v ++ ('"' :: rest))))) := by
    refine (takeWhile_append_pref isHtmlWs " \n          ".toList _ (by decide) ?_).2
    intro d ds hds
    cases hds
    exact hws
  rw [hd]
  have hn1 : (n0 :: (nm1 ++ ('=' :: ('"' :: (v ++ ('"' :: rest)))))).takeWhile
      isNameChar = n0 :: nm1 := by
    rw [show n0 :: (nm1 ++ ('=' :: ('"' :: (v ++ ('"' :: rest))))) =
      (n0 :: nm1) ++ ('=' :: ('"' :: (v ++ ('"' :: rest)))) from rfl]
    refine (takeWhile_append_pref isNameChar (n0 :: nm1) _ ?_ ?_).1
    · rw [List.all_cons, Bool.and_eq_true]
      exact ⟨hname, hnm⟩
    · intro d ds hds
      cases hds
      decide
  have hn2 : (n0 :: (nm1 ++ ('=' :: ('"' :: (v ++ ('"' :: rest)))))).dropWhile
      isNameChar = '=' :: ('"' :: (v ++ ('"' :: rest))) := by
    rw [show n0 :: (nm1 ++ ('=' :: ('"' :: (v ++ ('"' :: rest))))) =
      (n0 :: nm1) ++ ('=' :: ('"' :: (v ++ ('"' :: rest)))) from rfl]
    refine (takeWhile_append_pref isNameChar (n0 :: nm1) _ ?_ ?_).2
    · rw [List.all_cons, Bool.and_eq_true]
      exact ⟨hname, hnm⟩
    · intro d ds hds
      cases hds
      decide
  have hv1 : (v ++ ('"' :: rest)).takeWhile (fun d => !(d = '"')) = v := by
    refine (takeWhile_append_pref _ v _ hv ?_).1
    intro d ds hds
    cases hds
    decide
  have hv2 : (v ++ ('"' :: rest)).dropWhile (fun d => !(d = '"')) = '"' :: rest := by
    refine (takeWhile_append_pref _ v _ hv ?_).2
    intro d ds hds
    cases hds
    decide
  simp only [hn1, hn2, hv1, hv2, if_neg hgt, List.cons_ne_nil, if_false,
    List.drop_succ_cons, List.drop_zero]

/-- The attribute parser consumes a bare `>` and stops. -/
theorem parseAttrsGo_gt (body : Str) (f : Nat) :
    parseAttrsGo (f + 1) ('>' :: body) = ([], body) := by
  rfl

/-- `parseAttrs` on the template's attribute section returns exactly the
`class` and instance attributes and the input after the tag's `>`. -/
theorem parseAttrs_attrTail (cfg : MarkerCfg) (hc : cfgOK cfg = true) (body : Str) :
    parseAttrs (attrTail cfg ++ body) =
      ([("class".toList, cfg.cls), (instanceAttributeName, cfg.inst)], body) := by
  rw [cfgOK, Bool.and_eq_true, Bool.and_eq_true, Bool.and_eq_true] at hc
  obtain ⟨⟨⟨htne, hletters⟩, hcls⟩, hinst⟩ := hc
  have hshape : attrTail cfg ++ body =
      " \n          ".toList ++ ('c' :: ("lass".toList ++ ('=' :: ('"' ::
        (cfg.cls ++ ('"' :: (" \n          ".toList ++ ('d' ::
          ("ata-highlighter-instance".toList ++ ('=' :: ('"' ::
            (cfg.inst ++ ('"' :: ('>' :: body)))))))))))))) := by
    simp [attrTail, instanceAttributeName]
  obtain ⟨f, hf⟩ : ∃ f, (attrTail cfg ++ body).length + 1 = ((f + 1) + 1) + 1 := by
    have h2 : 2 ≤ (attrTail cfg).length := by
      rw [attrTail]
      simp only [List.length_append, List.length_cons]
      omega
    refine ⟨(attrTail cfg).length + body.length - 2, ?_⟩
    rw [List.length_append]
    omega
  rw [parseAttrs, hf, hshape]
  rw [parseAttrsGo_seg 'c' "lass".toList cfg.cls _ (by decide) (by decide) hcls]
  rw [parseAttrsGo_seg 'd' "ata-highlighter-instance".toList cfg.inst _
    (by decide) (by decide) hinst]
  rw [parseAttrsGo_gt body f]
  rfl

/-- `consumeClose` on the template's close tag returns the input after
its `>`. -/
theorem consumeClose_closeTag (tag rest : Str)
    (htag : tag.all (fun c => !(c = '>')) = true) :
    consumeClose ('<' :: '/' :: (tag ++ '>' :: rest)) = rest := by
  rw [consumeClose]
  rw [if_pos (by decide : (('<' : Char) = '<' && ('/' : Char) = '/') = true)]
  rw [(takeWhile_append_pref (fun c => !(c = '>')) tag ('>' :: rest) htag
    (fun d ds hds => by cases hds; decide)).2]
  rfl

/-- `mkElem` on the template's attribute pairs yields the marker
element. -/
theorem mkElem_markerAttrs (tag cls inst : Str) (ch : List HNode) :
    mkElem tag [("class".toList, cls), (instanceAttributeName, inst)] ch =
      .helem tag cls (some inst) ch := by
  rfl

/-- Parsing one replacement unit of the template: the open tag with its
attributes, the group text and the close tag produce the marker element
holding the group text; parsing continues on the remaining input. -/
theorem parseNodesF_marker (cfg : MarkerCfg) (hc : cfgOK cfg = true)
    (g1 tail : Str) (hg1 : g1.all (fun c => !(c = '<')) = true)
    (f1 : Nat) (hfg : g1.length < f1) (acc : Str) :
    parseNodesF (f1 + 1) acc (openTagStr cfg ++ (g1 ++ (closeTagStr cfg ++ tail))) =
      (flushText acc ++ .helem cfg.tag cfg.cls (some cfg.inst) (flushText g1) ::
        (parseNodesF f1 [] tail).1,
       (parseNodesF f1 [] tail).2) := by
  have hc2 := hc
  rw [cfgOK, Bool.and_eq_true, Bool.and_eq_true, Bool.and_eq_true] at hc2
  obtain ⟨⟨⟨htne, hletters⟩, hcls⟩, hinst⟩ := hc2
  obtain ⟨tc, tagR, htag⟩ : ∃ tc tagR, cfg.tag = tc :: tagR := by
    cases he : cfg.tag with
    | nil => rw [he] at htne; exact absurd htne (by decide)
    | cons a b => exact ⟨a, b, rfl⟩
  rw [htag] at hletters
  rw [List.all_cons, Bool.and_eq_true] at hletters
  rw [openTagStr, htag]
  simp only [List.cons_append, List.append_assoc]
  have hX : ∀ d ds, attrTail cfg ++ (g1 ++ (closeTagStr cfg ++ tail)) = d :: ds →
      isNameChar d = false := by
    intro d ds hds
    obtain ⟨atl, hatl⟩ := attrTail_eq_cons cfg
    rw [hatl, List.cons_append] at hds
    cases hds
    decide
  have htagall : (tc :: tagR).all isNameChar = true := by
    rw [List.all_cons, Bool.and_eq_true]
    exact ⟨isNameChar_of_letter tc hletters.1, all_isNameChar_of_letters tagR hletters.2⟩
  have hsp := takeWhile_append_pref isNameChar (tc :: tagR)
    (attrTail cfg ++ (g1 ++ (closeTagStr cfg ++ tail))) htagall hX
  rw [List.cons_append] at hsp
  have hne2 : ¬ tc = '/' :=
    pred_ne_of_true_false isAsciiLetter tc '/' hletters.1 (by decide)
  have hclose : closeTagStr cfg ++ tail =
      '<' :: ('/' :: ((tc :: tagR) ++ ('>' :: tail))) := by
    rw [closeTagStr, htag]
    simp
  have hta : (tc :: tagR).all (fun c => !(c = '>')) = true := by
    refine all_ne_of_letters _ '>' (by decide) ?_
    rw [List.all_cons, Bool.and_eq_true]
    exact hletters
  have hpa := parseAttrs_attrTail cfg hc (g1 ++ (closeTagStr cfg ++ tail))
  have hshift := parseNodesF_shift g1 f1 [] (closeTagStr cfg ++ tail) hg1 hfg
  rw [List.nil_append] at hshift
  have hpc : parseNodesF (f1 - g1.length) g1
      ('<' :: ('/' :: ((tc :: tagR) ++ ('>' :: tail)))) =
      (flushText g1, '<' :: ('/' :: ((tc :: tagR) ++ ('>' :: tail)))) :=
    parseNodesF_close (f1 - g1.length) g1 _ (by omega)
  rw [parseNodesF.eq_def]
  simp only [hsp.1, hsp.2, hne2, hletters.1, if_true, if_false,
    ite_true, ite_false, eq_self_iff_true, hpa, hshift, List.cons_ne_nil]
  rw [hclose, hpc]
  simp only [consumeClose_closeTag (tc :: tagR) tail hta, mkElem_markerAttrs]

/-- Parsing the full `replace` output of a markup-free text under a good
configuration yields exactly the interleaving `fragGo` describes, with no
leftover input. -/
theorem parseNodesF_newHTMLgo (cfg : MarkerCfg) (hc : cfgOK cfg = true)
    (s : Str) (hs : s.all (fun c => !(c = '<')) = true) :
    ∀ spans c fuel, goodSpans s c spans →
      (newHTMLgo cfg s spans c).length < fuel →
      parseNodesF fuel [] (newHTMLgo cfg s spans c) = (fragGo cfg s spans c, []) := by
  intro spans
  induction spans with
  | nil =>
    intro c fuel _ hfuel
    rw [newHTMLgo] at hfuel ⊢
    rw [parseNodesF_text _ fuel [] (all_drop _ s hs c) hfuel]
    rw [List.nil_append, fragGo, flushText]
    have hlen : (s.drop c).length = s.length - c := List.length_drop c s
    by_cases hlt : c < s.length
    · have hne : ¬ s.drop c = [] := by
        intro he
        rw [he] at hlen
        simp at hlen
        omega
      rw [if_pos hlt, if_neg hne]
    · rw [if_neg hlt, if_pos (List.drop_eq_nil_of_le (by omega))]
  | cons m rest ih =>
    intro c fuel hg hfuel
    obtain ⟨h1, h2, h3, h4⟩ := hg
    have hg4 : goodSpans s (m.start + m.len) rest :=
      goodSpans_mono s _ _ rest (by rw [matchStepPos]; omega) h4
    rw [newHTMLgo] at hfuel ⊢
    simp only [List.append_assoc]
    simp only [List.length_append] at hfuel
    have hopos : 0 < (openTagStr cfg).length := by
      rw [openTagStr, List.length_append, List.length_cons]
      omega
    have hcpos : 0 < (closeTagStr cfg).length := by
      rw [closeTagStr, List.length_append, List.length_cons, List.length_cons]
      omega
    have hP : ((s.drop c).take (m.start - c)).length < fuel := by omega
    rw [parseNodesF_shift _ fuel [] _ (all_drop_take _ s hs c (m.start - c)) hP,
      List.nil_append]
    obtain ⟨f1, hf1⟩ : ∃ f1, fuel - ((s.drop c).take (m.start - c)).length = f1 + 1 :=
      ⟨fuel - ((s.drop c).take (m.start - c)).length - 1, by omega⟩
    rw [hf1]
    have hg1all : m.group1.all (fun d => !(d = '<')) = true := by
      rw [h3]
      exact all_drop_take _ s hs m.start m.len
    have hfg : m.group1.length < f1 := by omega
    rw [parseNodesF_marker cfg hc m.group1 _ hg1all f1 hfg]
    have hT : (newHTMLgo cfg s rest (m.start + m.len)).length < f1 := by omega
    rw [ih (m.start + m.len) f1 hg4 hT]
    rw [fragGo]
    simp only [flushText]

/-- Under a good configuration and markup-free text, the parsed fragment
is exactly the node interleaving `fragGo` builds. -/
theorem fragNodes_eq_fragGo (cfg : MarkerCfg) (p : Pattern) (s : Str)
    (hcfg : cfgOK cfg = true) (hs : s.all (fun c => !(c = '<')) = true)
    (hwf : p.WF) (hcw : p.CapturesWhole) :
    fragNodes cfg p s = fragGo cfg s (matchSpans p s) 0 := by
  rw [fragNodes, parseFragment, newHTML]
  rw [parseNodesF_newHTMLgo cfg hcfg s hs (matchSpans p s) 0 _
    (matchSpans_good p s hwf hcw) (Nat.lt_succ_self _)]


mutual

theorem textContent_shallowNode (cfg : MarkerCfg) (p : Pattern)
    (hwf : p.WF) (hcw : p.CapturesWhole) (hcfg : cfgOK cfg = true) (n : HNode)
    (hm : noMarkupN n = true) :
    textContentL (shallowNode cfg p n) = textContentN n := by
  cases n with
  | htext s =>
    rw [noMarkupN] at hm
    rw [shallowNode]
    by_cases hc : (hasNonWs s && (p.findFrom s 0).isSome) = true
    · simp only [hc, if_true]
      rw [fragNodes_eq_fragGo cfg p s hcfg (noMarkupStr_no_lt s hm) hwf hcw]
      rw [fragGo_text cfg s _ 0 (matchSpans_good p s hwf hcw)]
      simp
    · simp only [Bool.not_eq_true] at hc
      simp [hc]
  | helem t c a ch =>
    rw [noMarkupN] at hm
    rw [shallowNode]
    simp only [textContentL_cons, textContentL_nil, textContentN_helem,
      List.append_nil]
    exact textContent_shallowList cfg p hwf hcw hcfg ch hm

theorem textContent_shallowList (cfg : MarkerCfg) (p : Pattern)
    (hwf : p.WF) (hcw : p.CapturesWhole) (hcfg : cfgOK cfg = true)
    (l : List HNode) (hm : noMarkupL l = true) :
    textContentL (shallowList cfg p l) = textContentL l := by
  cases l with
  | nil => rfl
  | cons n ns =>
    rw [noMarkupL, Bool.and_eq_true] at hm
    rw [shallowList]
    simp only [textContentL_cons]
    rw [textContentL_append, textContent_shallowNode cfg p hwf hcw hcfg n hm.1,
      textContent_shallowList cfg p hwf hcw hcfg ns hm.2]

end

theorem textContent_searchAndHighlight (cfg : MarkerCfg) (p : Pattern)
    (hwf : p.WF) (hcw : p.CapturesWhole) (hcfg : cfgOK cfg = true) (n : HNode)
    (hm : noMarkupN n = true) :
    textContentN (searchAndHighlight cfg p n) = textContentN n := by
  cases n with
  | htext s => rfl
  | helem t c a ch =>
    rw [noMarkupN] at hm
    rw [searchAndHighlight]
    simp only [textContentN_helem]
    exact textContent_shallowList cfg p hwf hcw hcfg ch hm

/-- Does a sibling list begin with a text node? -/
def startsWithText : List HNode → Bool
  | .htext _ :: _ => true
  | _ => false

/-- No two adjacent text nodes in this sibling list (one level). -/
def noAdjTexts : List HNode → Bool
  | [] => true
  | .htext _ :: rest => !startsWithText rest && noAdjTexts rest
  | .helem _ _ _ _ :: rest => noAdjTexts rest

mutual

/-- A node is in normal form: a non-empty text node, or an element whose
children are in normal form with no adjacent text siblings — the state
`Node.normalize()` establishes and fresh parsed markup satisfies. -/
def isNormN : HNode → Bool
  | .htext s => !s.isEmpty
  | .helem _ _ _ ch => isNormL ch && noAdjTexts ch

/-- Each member of the list is in normal form. -/
def isNormL : List HNode → Bool
  | [] => true
  | n :: ns => isNormN n && isNormL ns

end

theorem noAdjTexts_mergeTexts (l : List HNode) :
    noAdjTexts (mergeTexts l) = true := by
  induction l with
  | nil => rfl
  | cons n ns ih =>
    cases n with
    | htext s =>
      rw [mergeTexts]
      cases hm : mergeTexts ns with
      | nil =>
        by_cases hs : s = [] <;> simp [hs, noAdjTexts, startsWithText]
      | cons m r =>
        rw [hm] at ih
        cases m with
        | htext t =>
          rw [noAdjTexts] at ih
          rw [Bool.and_eq_true] at ih
          by_cases hst : s ++ t = []
          · simp only [hst, if_true]
            exact ih.2
          · simp only [hst, if_false, noAdjTexts]
            rw [Bool.and_eq_true]
            exact ⟨ih.1, ih.2⟩
        | helem t2 c2 a2 ch2 =>
          by_cases hs : s = []
          · simp only [hs, if_true]
            exact ih
          · simp only [hs, if_false, noAdjTexts, startsWithText]
            simp only [Bool.and_eq_true]
            exact ⟨rfl, ih⟩
    | helem t c a ch =>
      rw [mergeTexts, noAdjTexts]
      exact ih

/-- Members of `mergeTexts l`: either a non-empty text node, or an element
occurring in `l` unchanged. -/
theorem mergeTexts_mem (l : List HNode) :
    ∀ n ∈ mergeTexts l, (∃ s, n = .htext s ∧ s ≠ []) ∨
      (n ∈ l ∧ ∃ t c a ch, n = .helem t c a ch) := by
  induction l with
  | nil => intro n h; simp [mergeTexts] at h
  | cons x xs ih =>
    intro n hn
    cases x with
    | htext s =>
      rw [mergeTexts] at hn
      cases hm : mergeTexts xs with
      | nil =>
        rw [hm] at hn
        by_cases hs : s = []
        · simp [hs] at hn
        · simp only [hs, if_false] at hn
          rcases List.mem_singleton.mp hn with h
          exact Or.inl ⟨s, h, hs⟩
      | cons m r =>
        rw [hm] at hn
        cases m with
        | htext t =>
          by_cases hst : s ++ t = []
          · simp only [hst, if_true] at hn
            rcases ih n (by rw [hm]; exact List.mem_cons_of_mem _ hn) with h | h
            · exact Or.inl h
            · exact Or.inr ⟨List.mem_cons_of_mem _ h.1, h.2⟩
          · simp only [hst, if_false] at hn
            rcases List.mem_cons.mp hn with h | h
            · exact Or.inl ⟨s ++ t, h, hst⟩
            · rcases ih n (by rw [hm]; exact List.mem_cons_of_mem _ h) with h2 | h2
              · exact Or.inl h2
              · exact Or.inr ⟨List.mem_cons_of_mem _ h2.1, h2.2⟩
        | helem t2 c2 a2 ch2 =>
          by_cases hs : s = []
          · simp only [hs, if_true] at hn
            rcases ih n (by rw [hm]; exact hn) with h | h
            · exact Or.inl h
            · exact Or.inr ⟨List.mem_cons_of_mem _ h.1, h.2⟩
          · simp only [hs, if_false] at hn
            rcases List.mem_cons.mp hn with h | h
            · exact Or.inl ⟨s, h, hs⟩
            · rcases ih n (by rw [hm]; exact h) with h2 | h2
              · exact Or.inl h2
              · exact Or.inr ⟨List.mem_cons_of_mem _ h2.1, h2.2⟩
    | helem t c a ch =>
      rw [mergeTexts] at hn
      rcases List.mem_cons.mp hn with h | h
      · exact Or.inr ⟨by rw [h]; exact List.mem_cons_self _ _, t, c, a, ch, h⟩
      · rcases ih n h with h2 | h2
        · exact Or.inl h2
        · exact Or.inr ⟨List.mem_cons_of_mem _ h2.1, h2.2⟩

theorem isNormL_iff_forall (l : List HNode) :
    isNormL l = true ↔ ∀ n ∈ l, isNormN n = true := by
  induction l with
  | nil => simp [isNormL]
  | cons n ns ih =>
    rw [isNormL, Bool.and_eq_true, ih]
    simp

mutual

theorem isNormN_normalize_of_elem (n : HNode) :
    ∀ t c a ch, n = .helem t c a ch → isNormN (normalizeNode n) = true := by
  intro t c a ch he
  subst he
  rw [normalizeNode, isNormN, Bool.and_eq_true]
  refine ⟨?_, noAdjTexts_mergeTexts _⟩
  rw [isNormL_iff_forall]
  intro x hx
  rcases mergeTexts_mem _ x hx with ⟨s, hxs, hs⟩ | ⟨hmem, t2, c2, a2, ch2, hsh⟩
  · subst hxs
    rw [isNormN]
    simpa using hs
  · exact isNormN_normalizeList_elem ch x hmem t2 c2 a2 ch2 hsh

theorem isNormN_normalizeList_elem (l : List HNode) :
    ∀ n ∈ normalizeList l, ∀ t c a ch, n = .helem t c a ch → isNormN n = true := by
  intro n hn t c a ch he
  cases l with
  | nil => simp [normalizeList] at hn
  | cons x xs =>
    rw [normalizeList] at hn
    rcases List.mem_cons.mp hn with h | h
    · subst h
      cases x with
      | htext s =>
        rw [normalizeNode] at he
        exact absurd he (by simp)
      | helem t2 c2 a2 ch2 =>
        exact isNormN_normalize_of_elem _ t2 c2 a2 ch2 rfl
    · exact isNormN_normalizeList_elem xs n h t c a ch he

end

theorem remList_append (cfg : MarkerCfg) (a b : List HNode) :
    remList cfg (a ++ b) =
      ((remList cfg a).1 ++ (remList cfg b).1, (remList cfg a).2 || (remList cfg b).2) := by
  induction a with
  | nil => simp [remList]
  | cons x xs ih =>
    simp only [List.cons_append, remList, List.append_eq, ih, List.append_assoc,
      Bool.or_assoc]

theorem isNormL_append (a b : List HNode) :
    isNormL (a ++ b) = (isNormL a && isNormL b) := by
  induction a with
  | nil => simp [isNormL]
  | cons x xs ih => simp [isNormL, ih, Bool.and_assoc]

theorem matchSpans_ne_nil (p : Pattern) (s : Str)
    (h : (p.findFrom s 0).isSome = true) : matchSpans p s ≠ [] := by
  rw [matchSpans, matchSpansGo]
  cases hf : p.findFrom s 0 with
  | none => rw [hf] at h; simp at h
  | some m => simp

/-- A non-empty span list always leaves at least one Marker in the
fragment, so removal reports an unwrap at this level. -/
theorem fragGo_remFlag (cfg : MarkerCfg) (s : Str) (spans : List RegexMatch)
    (c : Nat) (h : spans ≠ []) :
    (remList cfg (fragGo cfg s spans c)).2 = true := by
  cases spans with
  | nil => exact absurd rfl h
  | cons m rest =>
    rw [fragGo, remList_append]
    simp only [remList, remNode]
    simp

mutual

theorem shallowRemNode (cfg : MarkerCfg) (p : Pattern)
    (hwf : p.WF) (hcw : p.CapturesWhole) (hcfg : cfgOK cfg = true) (n : HNode)
    (hn : isNormN n = true) (hm : noMarkupN n = true) :
    (remList cfg (shallowNode cfg p n)).2 = true ∨
    ((remList cfg (shallowNode cfg p n)).1 = [n] ∧ ∃ s, n = .htext s) ∨
    (∃ t c a ch2, (remList cfg (shallowNode cfg p n)).1 = [.helem t c a ch2] ∧
      isNormN (.helem t c a ch2) = true ∧ ∃ ch, n = .helem t c a ch) := by
  cases n with
  | htext s =>
    rw [noMarkupN] at hm
    rw [shallowNode]
    by_cases hc : (hasNonWs s && (p.findFrom s 0).isSome) = true
    · left
      simp only [hc, if_true]
      rw [fragNodes_eq_fragGo cfg p s hcfg (noMarkupStr_no_lt s hm) hwf hcw]
      exact fragGo_remFlag cfg s _ 0
        (matchSpans_ne_nil p s (Bool.and_eq_true _ _ |>.mp hc).2)
    · right; left
      simp only [Bool.not_eq_true] at hc
      simp only [hc, Bool.false_eq_true, if_false]
      exact ⟨by simp [remList, remNode], s, rfl⟩
  | helem t c a ch =>
    rw [noMarkupN] at hm
    rw [shallowNode]
    by_cases hmk : (decide (c = cfg.cls) && decide (a = some cfg.inst)) = true
    · left
      simp only [remList, remNode, hmk, if_true]
      simp
    · right; right
      simp only [Bool.not_eq_true] at hmk
      have hch : isNormL ch = true ∧ noAdjTexts ch = true := by
        rw [isNormN, Bool.and_eq_true] at hn
        exact hn
      simp only [remList, remNode, hmk, Bool.false_eq_true, if_false]
      by_cases hb : (remList cfg (shallowList cfg p ch)).2 = true
      · simp only [hb, if_true]
        refine ⟨t, c, a, mergeTexts (normalizeList
          (remList cfg (shallowList cfg p ch)).1), by simp [normalizeNode], ?_, ch, rfl⟩
        have := isNormN_normalize_of_elem
          (.helem t c a (remList cfg (shallowList cfg p ch)).1) t c a _ rfl
        rw [normalizeNode] at this
        exact this
      · simp only [Bool.not_eq_true] at hb
        simp only [hb, Bool.false_eq_true, if_false]
        rcases shallowRemList cfg p hwf hcw hcfg ch hch.1 hch.2 hm with h | h
        · rw [hb] at h; simp at h
        · exact ⟨t, c, a, (remList cfg (shallowList cfg p ch)).1, by simp,
            by rw [isNormN, Bool.and_eq_true]; exact ⟨h.1, h.2.1⟩, ch, rfl⟩

theorem shallowRemList (cfg : MarkerCfg) (p : Pattern)
    (hwf : p.WF) (hcw : p.CapturesWhole) (hcfg : cfgOK cfg = true) (l : List HNode)
    (hl : isNormL l = true) (ha : noAdjTexts l = true) (hm : noMarkupL l = true) :
    (remList cfg (shallowList cfg p l)).2 = true ∨
    (isNormL (remList cfg (shallowList cfg p l)).1 = true ∧
     noAdjTexts (remList cfg (shallowList cfg p l)).1 = true ∧
     (startsWithText (remList cfg (shallowList cfg p l)).1 = true →
       startsWithText l = true)) := by
  cases l with
  | nil =>
    right
    simp [shallowList, remList, isNormL, noAdjTexts, startsWithText]
  | cons n ns =>
    rw [noMarkupL, Bool.and_eq_true] at hm
    rw [shallowList, remList_append]
    rw [isNormL] at hl
    rw [Bool.and_eq_true] at hl
    by_cases hbn : (remList cfg (shallowNode cfg p n)).2 = true
    · left; simp [hbn]
    · by_cases hbs : (remList cfg (shallowList cfg p ns)).2 = true
      · left; simp [hbs]
      · right
        simp only [Bool.not_eq_true] at hbn hbs
        have hans : noAdjTexts ns = true := by
          cases n with
          | htext s => rw [noAdjTexts, Bool.and_eq_true] at ha; exact ha.2
          | helem t c a ch => rw [noAdjTexts] at ha; exact ha
        rcases shallowRemList cfg p hwf hcw hcfg ns hl.2 hans hm.2 with h | hrest
        · rw [hbs] at h; simp at h
        rcases shallowRemNode cfg p hwf hcw hcfg n hl.1 hm.1 with h | ⟨hout, s, hs⟩ |
            ⟨t, c, a, ch2, hout, hnorm, ch, hsh⟩
        · rw [hbn] at h; simp at h
        · subst hs
          rw [hout]
          refine ⟨?_, ?_, ?_⟩
          · rw [isNormL_append, Bool.and_eq_true]
            exact ⟨by simp [isNormL, hl.1], hrest.1⟩
          · simp only [List.singleton_append, noAdjTexts, List.append_eq,
              List.nil_append, Bool.and_eq_true]
            constructor
            · by_cases hsw : startsWithText (remList cfg (shallowList cfg p ns)).1 = true
              · exfalso
                have := hrest.2.2 hsw
                rw [noAdjTexts, Bool.and_eq_true] at ha
                rw [this] at ha
                simp at ha
              · simp only [Bool.not_eq_true] at hsw
                rw [hsw]
                rfl
            · exact hrest.2.1
          · intro _
            rfl
        · subst hsh
          rw [hout]
          refine ⟨?_, ?_, ?_⟩
          · rw [isNormL_append, Bool.and_eq_true]
            exact ⟨by simp [isNormL, hnorm], hrest.1⟩
          · simp only [List.singleton_append, noAdjTexts]
            exact hrest.2.1
          · intro hsw
            simp only [List.singleton_append, startsWithText] at hsw
            cases hsw

end

/-- After a shallow `highlight` pass on a normalized container, a
`removeHighlights` pass leaves the container in normal form: no empty
text nodes and no adjacent text nodes anywhere. -/
theorem removeHighlights_shallow_norm (cfg : MarkerCfg) (p : Pattern)
    (hwf : p.WF) (hcw : p.CapturesWhole) (hcfg : cfgOK cfg = true)
    (n : HNode) (hn : isNormN n = true) (hm : noMarkupN n = true) :
    isNormN (removeHighlights cfg (searchAndHighlight cfg p n)) = true := by
  cases n with
  | htext s =>
    rw [searchAndHighlight, removeHighlights]
    exact hn
  | helem t c a ch =>
    rw [searchAndHighlight, removeHighlights]
    by_cases hb : (remList cfg (shallowList cfg p ch)).2 = true
    · simp only [hb, if_true]
      exact isNormN_normalize_of_elem _ t c a _ rfl
    · simp only [Bool.not_eq_true] at hb
      simp only [hb, Bool.false_eq_true, if_false]
      have hch : isNormL ch = true ∧ noAdjTexts ch = true := by
        rw [isNormN, Bool.and_eq_true] at hn
        exact hn
      have hm2 : noMarkupL ch = true := by
        rw [noMarkupN] at hm
        exact hm
      rcases shallowRemList cfg p hwf hcw hcfg ch hch.1 hch.2 hm2 with h | h
      · rw [hb] at h; simp at h
      · rw [isNormN, Bool.and_eq_true]
        exact ⟨h.1, h.2.1⟩

@[simp] theorem collectMarkersN_htext (cfg : MarkerCfg) (s : Str) :
    collectMarkersN cfg (.htext s) = [] := by
  rw [collectMarkersN]

@[simp] theorem collectMarkersN_helem (cfg : MarkerCfg) (t c : Str)
    (a : Option Str) (ch : List HNode) :
    collectMarkersN cfg (.helem t c a ch) =
      (if (decide (c = cfg.cls) && decide (a = some cfg.inst)) = true
       then [.helem t c a ch] else []) ++ collectMarkersL cfg ch := by
  rw [collectMarkersN]

@[simp] theorem collectMarkersL_nil (cfg : MarkerCfg) :
    collectMarkersL cfg [] = [] := by
  rw [collectMarkersL]

@[simp] theorem collectMarkersL_cons (cfg : MarkerCfg) (n : HNode) (ns : List HNode) :
    collectMarkersL cfg (n :: ns) = collectMarkersN cfg n ++ collectMarkersL cfg ns := by
  rw [collectMarkersL]

theorem collectMarkersL_append (cfg : MarkerCfg) (a b : List HNode) :
    collectMarkersL cfg (a ++ b) = collectMarkersL cfg a ++ collectMarkersL cfg b := by
  induction a with
  | nil => simp [collectMarkersL]
  | cons x xs ih => simp [collectMarkersL, ih]

theorem collectMarkersL_mergeTexts (cfg : MarkerCfg) (l : List HNode) :
    collectMarkersL cfg (mergeTexts l) = collectMarkersL cfg l := by
  induction l with
  | nil => rfl
  | cons x xs ih =>
    cases x with
    | htext s =>
      rw [mergeTexts]
      cases hm : mergeTexts xs with
      | nil =>
        rw [hm] at ih
        by_cases hs : s = [] <;> simp [hs, ← ih]
      | cons m r =>
        rw [hm] at ih
        cases m with
        | htext t =>
          simp only [collectMarkersL_cons, collectMarkersN_htext,
            List.nil_append] at ih ⊢
          by_cases hst : s ++ t = []
          · simp only [hst, if_true]
            exact ih
          · simp only [hst, if_false, collectMarkersL_cons,
              collectMarkersN_htext, List.nil_append]
            exact ih
        | helem t2 c2 a2 ch2 =>
          simp only [collectMarkersL_cons, collectMarkersN_htext,
            List.nil_append] at ih
          by_cases hs : s = []
          · simp only [hs, if_true, collectMarkersL_cons, collectMarkersN_htext,
              List.nil_append]
            exact ih
          · simp only [hs, if_false, collectMarkersL_cons, collectMarkersN_htext,
              List.nil_append]
            exact ih
    | helem t c a ch =>
      rw [mergeTexts, collectMarkersL_cons, collectMarkersL_cons, ih]

mutual

theorem collectMarkers_normalizeN (cfg : MarkerCfg) (n : HNode) :
    (collectMarkersN cfg (normalizeNode n)).map textContentN =
      (collectMarkersN cfg n).map textContentN := by
  cases n with
  | htext s => rfl
  | helem t c a ch =>
    rw [normalizeNode, collectMarkersN, collectMarkersN]
    rw [List.map_append, List.map_append]
    rw [collectMarkersL_mergeTexts, collectMarkers_normalizeL cfg ch]
    congr 1
    by_cases hm : (decide (c = cfg.cls) && decide (a = some cfg.inst)) = true
    · simp only [hm, if_true, List.map_cons, List.map_nil]
      congr 1
      simp only [textContentN_helem]
      rw [textContentL_mergeTexts, textContentL_normalize]
    · simp only [Bool.not_eq_true] at hm
      simp [hm]

theorem collectMarkers_normalizeL (cfg : MarkerCfg) (l : List HNode) :
    (collectMarkersL cfg (normalizeList l)).map textContentN =
      (collectMarkersL cfg l).map textContentN := by
  cases l with
  | nil => rfl
  | cons x xs =>
    rw [normalizeList, collectMarkersL, collectMarkersL]
    rw [List.map_append, List.map_append]
    rw [collectMarkers_normalizeN cfg x, collectMarkers_normalizeL cfg xs]

end

theorem collectMarkersL_normalize_nil (cfg : MarkerCfg) (l : List HNode)
    (h : collectMarkersL cfg l = []) : collectMarkersL cfg (normalizeList l) = [] := by
  have := collectMarkers_normalizeL cfg l
  rw [h] at this
  simp only [List.map_nil] at this
  exact List.map_eq_nil_iff.mp this

mutual

theorem remNode_collect_self (cfg : MarkerCfg) (n : HNode) :
    collectMarkersL cfg (remNode cfg n).1 = [] := by
  cases n with
  | htext s => simp [remNode, collectMarkersL, collectMarkersN]
  | helem t c a ch =>
    rw [remNode]
    by_cases hm : (decide (c = cfg.cls) && decide (a = some cfg.inst)) = true
    · simp only [hm, if_true]
      exact remList_collect_self cfg ch
    · simp only [Bool.not_eq_true] at hm
      simp only [hm, Bool.false_eq_true, if_false]
      by_cases hb : (remList cfg ch).2 = true
      · simp only [hb, if_true, collectMarkersL_cons, collectMarkersL_nil,
          List.append_nil]
        rw [normalizeNode, collectMarkersN_helem]
        simp only [hm, Bool.false_eq_true, if_false, List.nil_append]
        rw [collectMarkersL_mergeTexts]
        exact collectMarkersL_normalize_nil cfg _ (remList_collect_self cfg ch)
      · simp only [Bool.not_eq_true] at hb
        simp only [hb, Bool.false_eq_true, if_false, collectMarkersL_cons,
          collectMarkersL_nil, List.append_nil, collectMarkersN_helem, hm,
          List.nil_append]
        exact remList_collect_self cfg ch

theorem remList_collect_self (cfg : MarkerCfg) (l : List HNode) :
    collectMarkersL cfg (remList cfg l).1 = [] := by
  cases l with
  | nil => rfl
  | cons x xs =>
    rw [remList]
    simp only
    rw [collectMarkersL_append, remNode_collect_self cfg x, remList_collect_self cfg xs]
    rfl

end

mutual

theorem remNode_id_of_noMark (cfg : MarkerCfg) (n : HNode)
    (h : collectMarkersN cfg n = []) : remNode cfg n = ([n], false) := by
  cases n with
  | htext s => rfl
  | helem t c a ch =>
    rw [collectMarkersN_helem] at h
    by_cases hm : (decide (c = cfg.cls) && decide (a = some cfg.inst)) = true
    · rw [hm] at h
      simp at h
    · simp only [Bool.not_eq_true] at hm
      rw [hm] at h
      simp only [Bool.false_eq_true, if_false, List.nil_append] at h
      rw [remNode, hm]
      simp only [Bool.false_eq_true, if_false]
      rw [remList_id_of_noMark cfg ch h]
      simp

theorem remList_id_of_noMark (cfg : MarkerCfg) (l : List HNode)
    (h : collectMarkersL cfg l = []) : remList cfg l = (l, false) := by
  cases l with
  | nil => rfl
  | cons x xs =>
    rw [collectMarkersL_cons, List.append_eq_nil] at h
    rw [remList, remNode_id_of_noMark cfg x h.1, remList_id_of_noMark cfg xs h.2]
    rfl

end

theorem marker_cond_false (cfg1 cfg2 : MarkerCfg) (c : Str) (a : Option Str)
    (hne : cfg2.cls ≠ cfg1.cls ∨ cfg2.inst ≠ cfg1.inst)
    (hm1 : (decide (c = cfg1.cls) && decide (a = some cfg1.inst)) = true) :
    (decide (c = cfg2.cls) && decide (a = some cfg2.inst)) = false := by
  rw [Bool.and_eq_true, decide_eq_true_iff, decide_eq_true_iff] at hm1
  rw [Bool.and_eq_false_iff]
  rcases hne with h | h
  · left
    rw [decide_eq_false_iff_not]
    rw [hm1.1]
    exact fun hc => h (hc ▸ rfl)
  · right
    rw [decide_eq_false_iff_not]
    rw [hm1.2]
    intro hc
    exact h (Option.some_inj.mp hc).symm

mutual

theorem collect_remNode_other (cfg1 cfg2 : MarkerCfg)
    (hne : cfg2.cls ≠ cfg1.cls ∨ cfg2.inst ≠ cfg1.inst) (n : HNode) :
    (collectMarkersL cfg2 (remNode cfg1 n).1).map textContentN =
      (collectMarkersN cfg2 n).map textContentN := by
  cases n with
  | htext s => simp [remNode]
  | helem t c a ch =>
    rw [remNode]
    by_cases hm1 : (decide (c = cfg1.cls) && decide (a = some cfg1.inst)) = true
    · simp only [hm1, if_true]
      rw [collectMarkersN_helem, marker_cond_false cfg1 cfg2 c a hne hm1]
      simp only [Bool.false_eq_true, if_false, List.nil_append]
      exact collect_remList_other cfg1 cfg2 hne ch
    · simp only [Bool.not_eq_true] at hm1
      simp only [hm1, Bool.false_eq_true, if_false]
      by_cases hb : (remList cfg1 ch).2 = true
      · simp only [hb, if_true, collectMarkersL_cons, collectMarkersL_nil,
          List.append_nil]
        have hn := collectMarkers_normalizeN cfg2
          (.helem t c a (remList cfg1 ch).1)
        rw [hn]
        rw [collectMarkersN_helem, collectMarkersN_helem]
        rw [List.map_append, List.map_append]
        congr 1
        · by_cases hm2 : (decide (c = cfg2.cls) && decide (a = some cfg2.inst)) = true
          · simp only [hm2, if_true, List.map_cons, List.map_nil]
            congr 1
            simp only [textContentN_helem]
            exact textContent_remList cfg1 ch
          · simp only [Bool.not_eq_true] at hm2
            simp [hm2]
        · exact collect_remList_other cfg1 cfg2 hne ch
      · simp only [Bool.not_eq_true] at hb
        simp only [hb, Bool.false_eq_true, if_false, collectMarkersL_cons,
          collectMarkersL_nil, List.append_nil]
        rw [collectMarkersN_helem, collectMarkersN_helem]
        rw [List.map_append, List.map_append]
        congr 1
        · by_cases hm2 : (decide (c = cfg2.cls) && decide (a = some cfg2.inst)) = true
          · simp only [hm2, if_true, List.map_cons, List.map_nil]
            congr 1
            simp only [textContentN_helem]
            exact textContent_remList cfg1 ch
          · simp only [Bool.not_eq_true] at hm2
            simp [hm2]
        · exact collect_remList_other cfg1 cfg2 hne ch

theorem collect_remList_other (cfg1 cfg2 : MarkerCfg)
    (hne : cfg2.cls ≠ cfg1.cls ∨ cfg2.inst ≠ cfg1.inst) (l : List HNode) :
    (collectMarkersL cfg2 (remList cfg1 l).1).map textContentN =
      (collectMarkersL cfg2 l).map textContentN := by
  cases l with
  | nil => rfl
  | cons x xs =>
    rw [remList]
    simp only
    rw [collectMarkersL_append, collectMarkersL_cons]
    rw [List.map_append, List.map_append]
    rw [collect_remNode_other cfg1 cfg2 hne x, collect_remList_other cfg1 cfg2 hne xs]

end

/-- Removal scoped to another instance preserves this instance's Markers
and the text inside them. -/
theorem collect_removeHighlights_other (cfg1 cfg2 : MarkerCfg)
    (hne : cfg2.cls ≠ cfg1.cls ∨ cfg2.inst ≠ cfg1.inst) (n : HNode) :
    (collectMarkersN cfg2 (removeHighlights cfg1 n)).map textContentN =
      (collectMarkersN cfg2 n).map textContentN := by
  cases n with
  | htext s => rfl
  | helem t c a ch =>
    rw [removeHighlights]
    by_cases hb : (remList cfg1 ch).2 = true
    · simp only [hb, if_true]
      rw [collectMarkers_normalizeN cfg2 (.helem t c a (remList cfg1 ch).1)]
      rw [collectMarkersN_helem, collectMarkersN_helem]
      rw [List.map_append, List.map_append]
      congr 1
      · by_cases hm2 : (decide (c = cfg2.cls) && decide (a = some cfg2.inst)) = true
        · simp only [hm2, if_true, List.map_cons, List.map_nil]
          congr 1
          simp only [textContentN_helem]
          exact textContent_remList cfg1 ch
        · simp only [Bool.not_eq_true] at hm2
          simp [hm2]
      · exact collect_remList_other cfg1 cfg2 hne ch
    · simp only [Bool.not_eq_true] at hb
      simp only [hb, Bool.false_eq_true, if_false]
      rw [collectMarkersN_helem, collectMarkersN_helem]
      rw [List.map_append, List.map_append]
      congr 1
      · by_cases hm2 : (decide (c = cfg2.cls) && decide (a = some cfg2.inst)) = true
        · simp only [hm2, if_true, List.map_cons, List.map_nil]
          congr 1
          simp only [textContentN_helem]
          exact textContent_remList cfg1 ch
        · simp only [Bool.not_eq_true] at hm2
          simp [hm2]
      · exact collect_remList_other cfg1 cfg2 hne ch

/-- Children list of a node (a text node has none). -/
def childrenOf : HNode → List HNode
  | .htext _ => []
  | .helem _ _ _ ch => ch

/-- After removal, no Marker of the removing instance remains below the
container. -/
theorem collect_removeHighlights_self (cfg : MarkerCfg) (t c : Str)
    (a : Option Str) (ch : List HNode) :
    collectMarkersL cfg (childrenOf (removeHighlights cfg (.helem t c a ch))) = [] := by
  rw [removeHighlights]
  by_cases hb : (remList cfg ch).2 = true
  · simp only [hb, if_true]
    rw [normalizeNode, childrenOf]
    rw [collectMarkersL_mergeTexts]
    exact collectMarkersL_normalize_nil cfg _ (remList_collect_self cfg ch)
  · simp only [Bool.not_eq_true] at hb
    simp only [hb, Bool.false_eq_true, if_false]
    rw [childrenOf]
    exact remList_collect_self cfg ch

/-- `removeHighlights` is idempotent on any tree. -/
theorem removeHighlights_idem (cfg : MarkerCfg) (n : HNode) :
    removeHighlights cfg (removeHighlights cfg n) = removeHighlights cfg n := by
  cases n with
  | htext s => rfl
  | helem t c a ch =>
    have hcl := collect_removeHighlights_self cfg t c a ch
    rw [removeHighlights] at hcl ⊢
    by_cases hb : (remList cfg ch).2 = true
    · simp only [hb, if_true] at hcl ⊢
      rw [normalizeNode] at hcl ⊢
      rw [childrenOf] at hcl
      rw [removeHighlights, remList_id_of_noMark cfg _ hcl]
      simp
    · simp only [Bool.not_eq_true] at hb
      simp only [hb, Bool.false_eq_true, if_false] at hcl ⊢
      rw [childrenOf] at hcl
      rw [removeHighlights, remList_id_of_noMark cfg _ hcl]
      simp

/-- Deep-mode DOM node: `Text` nodes are identified by a numeric id (their
JavaScript object identity — `wrapRangeDeep` mutates nodes aliased by the
`TextMapping` table), elements carry tag, class, instance attribute and
children. -/
inductive DNode where
  | txt : Nat → DNode
  | el : Str → Str → Str → List DNode → DNode

/-- Deep-mode document state: the container's children, the content store
of every `Text` node ever created (attached or detached — a detached node
keeps its content), and the id supply. -/
structure DState where
  tree : List DNode
  store : Nat → Str
  next : Nat

mutual

/-- Ids of the text leaves below a node, document order. -/
def leavesN : DNode → List Nat
  | .txt i => [i]
  | .el _ _ _ ch => leavesL ch

/-- Ids of the text leaves below a sibling list. -/
def leavesL : List DNode → List Nat
  | [] => []
  | n :: ns => leavesN n ++ leavesL ns

end

/-- `element.textContent`: concatenation of all text leaves under the
container. -/
def textContentD (σ : DState) : Str :=
  ((leavesL σ.tree).map σ.store).flatten

mutual

/-- Replace the text leaf with id `i` by the nodes `repl` (in place); a
detached id leaves the tree unchanged. -/
def spliceN (i : Nat) (repl : List DNode) : DNode → List DNode
  | .txt j => if j = i then repl else [.txt j]
  | .el t c a ch => [.el t c a (spliceL i repl ch)]

/-- `spliceN` over a sibling list. -/
def spliceL (i : Nat) (repl : List DNode) : List DNode → List DNode
  | [] => []
  | n :: ns => spliceN i repl n ++ spliceL i repl ns

end

/-- Pointwise store update. -/
def updStore (store : Nat → Str) (i : Nat) (v : Str) : Nat → Str :=
  fun j => if j = i then v else store j

/-- `Text.splitText(offset)`: the node keeps the first `offset` characters,
a fresh node holding the rest is created and, when the node is attached,
inserted right after it. Returns the new state and the new node's id. -/
def splitText (σ : DState) (i : Nat) (off : Nat) : DState × Nat :=
  (⟨spliceL i [.txt i, .txt σ.next] σ.tree,
    updStore (updStore σ.store i ((σ.store i).take off)) σ.next ((σ.store i).drop off),
    σ.next + 1⟩, σ.next)

/-- `wrapNode` (src/highlight.ts lines 273-279) applied to
`document.createTextNode(node.textContent)` followed by
`node.parentNode?.replaceChild(wrapper, node)`: a fresh text node copies
the node's current content, is wrapped in a new marker element, and the
wrapper replaces the node when it is attached (optional chaining makes
this a no-op on a detached node). -/
def wrapReplace (cfg : MarkerCfg) (σ : DState) (i : Nat) : DState :=
  ⟨spliceL i [.el cfg.tag cfg.cls cfg.inst [.txt σ.next]] σ.tree,
   updStore σ.store σ.next (σ.store i),
   σ.next + 1⟩

/-- One entry of the deep-mode `textMappings` table: a `Text` node
reference and its global start offset at indexing time. -/
structure TextMapping where
  node : Nat
  index : Nat
deriving Repr, DecidableEq

/-- The `while (walker.nextNode())` indexing loop of
`searchAndHighlightDeep` (src/highlight.ts lines 188-197) over the leaf
ids: whitespace-only leaves are rejected and contribute nothing, accepted
leaves record the running `globalIndex`, advanced by their length. -/
def mapsGo (store : Nat → Str) : List Nat → Nat → List TextMapping
  | [], _ => []
  | i :: rest, idx =>
    if hasNonWs (store i) then ⟨i, idx⟩ :: mapsGo store rest (idx + (store i).length)
    else mapsGo store rest idx

/-- The `textMappings` table built for a container. -/
def buildTextMappings (σ : DState) : List TextMapping :=
  mapsGo σ.store (leavesL σ.tree) 0

/-- The loop of `binarySearch` from `src/utils.ts`; the fuel is an upper
bound on the iteration count (`right - left` shrinks every round, so
`length + 1` rounds always suffice and the `0` case is never reached from
`binarySearch`). -/
def binarySearchGo (cmp : TextMapping → Int) (arr : List TextMapping) :
    Nat → Int → Int → Int
  | 0, _, _ => -1
  | fuel + 1, left, right =>
    if left ≤ right then
      let mid := (left + right) / 2
      match arr.get? mid.toNat with
      | none => -1
      | some x =>
        if cmp x < 0 then binarySearchGo cmp arr fuel left (mid - 1)
        else if cmp x > 0 then binarySearchGo cmp arr fuel (mid + 1) right
        else mid
    else -1

/-- `binarySearch` from `src/utils.ts`: index of the matched item, or `-1`
if not found. -/
def binarySearch (arr : List TextMapping) (cmp : TextMapping → Int) : Int :=
  binarySearchGo cmp arr (arr.length + 1) 0 ((arr.length : Int) - 1)

/-- `findTextMappingIndex` (src/highlight.ts lines 261-271): locate the
mapping whose live interval `[tm.index, tm.index + tm.node.length)`
contains `pos`; `tm.node.length` reads the node's current content. -/
def findTextMappingIndex (σ : DState) (textMappings : List TextMapping)
    (pos : Int) : Int :=
  binarySearch textMappings (fun tm =>
    if pos < (tm.index : Int) then -1
    else if pos ≥ (tm.index : Int) + ((σ.store tm.node).length : Int) then 1
    else 0)

/-- The `for (let i = startMappingIndex + 1; i < endMappingIndex; i++)`
loop of `wrapRangeDeep`: wrap every mapping strictly between start and
end in its entirety. -/
def wrapMiddles (cfg : MarkerCfg) (tms : List TextMapping) :
    DState → Nat → Nat → DState
  | σ, i, e =>
    if i < e then
      wrapMiddles cfg tms
        (wrapReplace cfg σ (((tms.get? i).getD ⟨0, 0⟩).node)) (i + 1) e
    else σ
termination_by _ i e => e - i

/-- `wrapRangeDeep` (src/highlight.ts lines 215-259). -/
def wrapRangeDeep (cfg : MarkerCfg) (σ : DState) (textMappings : List TextMapping)
    (startIndex : Nat) (endIndex : Int) : DState :=
  let startMappingIndex := findTextMappingIndex σ textMappings (startIndex : Int)
  let endMappingIndex := findTextMappingIndex σ textMappings endIndex
  if startMappingIndex = -1 ∨ endMappingIndex = -1 then σ
  else
    let startTM := (textMappings.get? startMappingIndex.toNat).getD ⟨0, 0⟩
    let endTM := (textMappings.get? endMappingIndex.toNat).getD ⟨0, 0⟩
    let startOffsetInNode := startIndex - startTM.index
    let endOffsetInNode := (endIndex - (endTM.index : Int)).toNat
    if startMappingIndex ≠ endMappingIndex then
      let s1 := splitText σ startTM.node startOffsetInNode
      let σ2 := wrapReplace cfg s1.1 s1.2
      let σ3 := (splitText σ2 endTM.node (endOffsetInNode + 1)).1
      let σ4 := wrapReplace cfg σ3 endTM.node
      wrapMiddles cfg textMappings σ4 (startMappingIndex.toNat + 1)
        endMappingIndex.toNat
    else
      let s1 := splitText σ startTM.node startOffsetInNode
      let σ2 := (splitText s1.1 s1.2 (endOffsetInNode - startOffsetInNode + 1)).1
      wrapReplace cfg σ2 s1.2

/-- The match-and-wrap loop of `searchAndHighlightDeep` (src/highlight.ts
lines 199-209): `element.textContent` is re-read on every iteration,
`lastIndex` advances to `match.index + match[0].length`, and the inclusive
`endIndex` is `startIndex + fullMatch.length - 1`.  Fuel-indexed because
the loop need not terminate (zero-length matches); `none` = fuel ran out. -/
def deepLoopGo (cfg : MarkerCfg) (p : Pattern) (tms : List TextMapping) :
    Nat → DState → Nat → Option DState
  | 0, _, _ => none
  | fuel + 1, σ, pos =>
    match p.findFrom (textContentD σ) pos with
    | none => some σ
    | some m =>
      deepLoopGo cfg p tms fuel
        (wrapRangeDeep cfg σ tms m.start ((m.start : Int) + (m.len : Int) - 1))
        (m.start + m.len)

/-- `searchAndHighlightDeep` (src/highlight.ts lines 173-210). -/
def searchAndHighlightDeep (cfg : MarkerCfg) (p : Pattern) (fuel : Nat)
    (σ : DState) : Option DState :=
  if textContentD σ = [] then some σ
  else deepLoopGo cfg p (buildTextMappings σ) fuel σ 0

/-- Well-formed deep state: distinct live text-node ids, all below the id
supply — true of any state assembled from real DOM nodes. -/
def WFState (σ : DState) : Prop :=
  (leavesL σ.tree).Nodup ∧ ∀ i ∈ leavesL σ.tree, i < σ.next

@[simp] theorem leavesN_txt (i : Nat) : leavesN (.txt i) = [i] := by rw [leavesN]

@[simp] theorem leavesN_el (t c a : Str) (ch : List DNode) :
    leavesN (.el t c a ch) = leavesL ch := by rw [leavesN]

@[simp] theorem leavesL_nil : leavesL [] = [] := by rw [leavesL]

@[simp] theorem leavesL_cons (n : DNode) (ns : List DNode) :
    leavesL (n :: ns) = leavesN n ++ leavesL ns := by rw [leavesL]

theorem leavesL_append (a b : List DNode) :
    leavesL (a ++ b) = leavesL a ++ leavesL b := by
  induction a with
  | nil => simp
  | cons x xs ih => simp [ih]

theorem flatMap_append_nat (f : Nat → List Nat) (a b : List Nat) :
    (a ++ b).flatMap f = a.flatMap f ++ b.flatMap f := by
  induction a with
  | nil => simp
  | cons x xs ih => simp [ih]

mutual

theorem leaves_spliceN (i : Nat) (repl : List DNode) (n : DNode) :
    leavesL (spliceN i repl n) =
      (leavesN n).flatMap (fun j => if j = i then leavesL repl else [j]) := by
  cases n with
  | txt j =>
    rw [spliceN]
    by_cases hj : j = i <;> simp [hj]
  | el t c a ch =>
    rw [spliceN]
    simp only [leavesL_cons, leavesN_el, leavesL_nil, List.append_nil]
    exact leaves_spliceL i repl ch

theorem leaves_spliceL (i : Nat) (repl : List DNode) (l : List DNode) :
    leavesL (spliceL i repl l) =
      (leavesL l).flatMap (fun j => if j = i then leavesL repl else [j]) := by
  cases l with
  | nil => simp [spliceL]
  | cons n ns =>
    rw [spliceL]
    rw [leavesL_append, leaves_spliceN i repl n, leaves_spliceL i repl ns]
    rw [leavesL_cons, flatMap_append_nat]

end

theorem flatMap_splice_id (ids : List Nat) (i : Nat) (rids : List Nat)
    (h : i ∉ ids) :
    ids.flatMap (fun j => if j = i then rids else [j]) = ids := by
  induction ids with
  | nil => simp
  | cons x xs ih =>
    rw [List.flatMap_cons]
    have hx : x ≠ i := fun he => h (he ▸ List.mem_cons_self x xs)
    simp only [hx, if_false]
    rw [ih (fun hm => h (List.mem_cons_of_mem _ hm))]
    rfl

theorem flatMap_splice_subset (ids : List Nat) (i : Nat) (rids : List Nat) :
    ∀ x ∈ ids.flatMap (fun j => if j = i then rids else [j]),
      x ∈ ids ∨ x ∈ rids := by
  intro x hx
  rw [List.mem_flatMap] at hx
  obtain ⟨j, hj, hmem⟩ := hx
  by_cases hji : j = i
  · rw [hji, if_pos rfl] at hmem
    exact Or.inr hmem
  · rw [if_neg hji] at hmem
    rw [List.mem_singleton] at hmem
    exact Or.inl (hmem ▸ hj)

theorem nodup_flatMap_splice (ids : List Nat) (i : Nat) (rids : List Nat)
    (hnd : ids.Nodup) (hrnd : rids.Nodup)
    (hdisj : ∀ r ∈ rids, r ∉ ids ∨ r = i) :
    (ids.flatMap (fun j => if j = i then rids else [j])).Nodup := by
  induction ids with
  | nil => simp
  | cons x xs ih =>
    rw [List.flatMap_cons]
    rw [List.nodup_cons] at hnd
    have ihx := ih hnd.2 (fun r hr => by
      rcases hdisj r hr with h | h
      · exact Or.inl (fun hm => h (List.mem_cons_of_mem _ hm))
      · exact Or.inr h)
    by_cases hxi : x = i
    · subst hxi
      simp only [if_pos rfl]
      rw [flatMap_splice_id xs x rids hnd.1]
      rw [List.nodup_append]
      refine ⟨hrnd, hnd.2, ?_⟩
      intro r hr
      rcases hdisj r hr with h | h
      · exact fun hm => h (List.mem_cons_of_mem _ hm)
      · exact fun hm => hnd.1 (h ▸ hm)
    · simp only [hxi, if_false]
      rw [List.singleton_append, List.nodup_cons]
      refine ⟨?_, ihx⟩
      intro hmem
      rcases flatMap_splice_subset xs i rids x hmem with h | h
      · exact hnd.1 h
      · rcases hdisj x h with h2 | h2
        · exact h2 (List.mem_cons_self x xs)
        · exact hxi h2

theorem flatten_map_splice (ids : List Nat) (store store' : Nat → Str)
    (i : Nat) (rids : List Nat)
    (h1 : ∀ j ∈ ids, j ≠ i → store' j = store j)
    (h2 : (rids.map store').flatten = store i) :
    ((ids.flatMap (fun j => if j = i then rids else [j])).map store').flatten =
      ((ids.map store).flatten) := by
  induction ids with
  | nil => simp
  | cons x xs ih =>
    rw [List.flatMap_cons, List.map_cons, List.map_append, List.flatten_append,
      List.flatten_cons]
    rw [ih (fun j hj => h1 j (List.mem_cons_of_mem _ hj))]
    by_cases hxi : x = i
    · subst hxi
      rw [if_pos rfl, h2]
    · rw [if_neg hxi]
      simp only [List.map_cons, List.map_nil, List.flatten_cons,
        List.flatten_nil, List.append_nil]
      rw [h1 x (List.mem_cons_self x xs) hxi]

theorem flatten_map_congr (ids : List Nat) (store store' : Nat → Str)
    (h : ∀ j ∈ ids, store' j = store j) :
    ((ids.map store').flatten) = ((ids.map store).flatten) := by
  induction ids with
  | nil => rfl
  | cons x xs ih =>
    rw [List.map_cons, List.map_cons, List.flatten_cons, List.flatten_cons]
    rw [h x (List.mem_cons_self x xs), ih (fun j hj => h j (List.mem_cons_of_mem _ hj))]

/-- Two-step invariant used along the deep rewrite: the container's text
content is unchanged and the state stays well-formed. -/
def StepInv (σ σ' : DState) : Prop :=
  textContentD σ' = textContentD σ ∧ WFState σ'

theorem StepInv_trans {a b c : DState} (h1 : StepInv a b) (h2 : StepInv b c) :
    StepInv a c :=
  ⟨h2.1.trans h1.1, h2.2⟩

theorem StepInv_refl (σ : DState) (hwf : WFState σ) : StepInv σ σ :=
  ⟨rfl, hwf⟩

theorem leavesL_pair (i k : Nat) : leavesL [DNode.txt i, DNode.txt k] = [i, k] := by
  simp

theorem leavesL_wrap (t c a : Str) (k : Nat) :
    leavesL [DNode.el t c a [DNode.txt k]] = [k] := by
  simp

theorem splitText_inv (σ : DState) (i off : Nat) (hwf : WFState σ) :
    StepInv σ (splitText σ i off).1 := by
  obtain ⟨hnd, hlt⟩ := hwf
  have hnext : i ∈ leavesL σ.tree → i < σ.next := hlt i
  refine ⟨?_, ?_, ?_⟩
  · show textContentD _ = textContentD σ
    rw [textContentD, textContentD]
    simp only [splitText]
    rw [leaves_spliceL, leavesL_pair]
    by_cases hi : i ∈ leavesL σ.tree
    · have hin : i < σ.next := hnext hi
      apply flatten_map_splice
      · intro j hj hji
        have hjn : j < σ.next := hlt j hj
        simp only [updStore]
        rw [if_neg (by omega), if_neg hji]
      · have hne : ¬ i = σ.next := by omega
        have hne2 : ¬ σ.next = i := by omega
        simp [updStore, hne, hne2, List.take_append_drop]
    · rw [flatMap_splice_id _ _ _ hi]
      apply flatten_map_congr
      intro j hj
      have hjn : j < σ.next := hlt j hj
      have hji : j ≠ i := fun he => hi (he ▸ hj)
      simp only [updStore]
      rw [if_neg (by omega), if_neg hji]
  · show (leavesL (spliceL i [.txt i, .txt σ.next] σ.tree)).Nodup
    rw [leaves_spliceL, leavesL_pair]
    by_cases hi : i ∈ leavesL σ.tree
    · have hin : i < σ.next := hnext hi
      apply nodup_flatMap_splice _ _ _ hnd
      · rw [List.nodup_cons]
        refine ⟨?_, List.nodup_singleton _⟩
        rw [List.mem_singleton]
        omega
      · intro r hr
        rcases List.mem_cons.mp hr with h | h
        · exact Or.inr h
        · rw [List.mem_singleton] at h
          refine Or.inl (fun hm => ?_)
          have := hlt r hm
          omega
    · rw [flatMap_splice_id _ _ _ hi]
      exact hnd
  · intro j hj
    show j < σ.next + 1
    rw [show (splitText σ i off).1.tree =
        spliceL i [.txt i, .txt σ.next] σ.tree from rfl] at hj
    rw [leaves_spliceL, leavesL_pair] at hj
    rcases flatMap_splice_subset _ _ _ j hj with h | h
    · have := hlt j h; omega
    · rcases List.mem_cons.mp h with h2 | h2
      · subst h2
        by_cases hi : j ∈ leavesL σ.tree
        · have := hlt j hi; omega
        · rw [flatMap_splice_id _ _ _ hi] at hj
          have := hlt j hj; omega
      · rw [List.mem_singleton] at h2
        omega

theorem wrapReplace_inv (cfg : MarkerCfg) (σ : DState) (i : Nat)
    (hwf : WFState σ) : StepInv σ (wrapReplace cfg σ i) := by
  obtain ⟨hnd, hlt⟩ := hwf
  refine ⟨?_, ?_, ?_⟩
  · show textContentD _ = textContentD σ
    rw [textContentD, textContentD]
    simp only [wrapReplace]
    rw [leaves_spliceL, leavesL_wrap]
    by_cases hi : i ∈ leavesL σ.tree
    · apply flatten_map_splice
      · intro j hj _
        have hjn : j < σ.next := hlt j hj
        simp only [updStore]
        rw [if_neg (by omega)]
      · simp [updStore]
    · rw [flatMap_splice_id _ _ _ hi]
      apply flatten_map_congr
      intro j hj
      have hjn : j < σ.next := hlt j hj
      simp only [updStore]
      rw [if_neg (by omega)]
  · show (leavesL (spliceL i [.el cfg.tag cfg.cls cfg.inst [.txt σ.next]] σ.tree)).Nodup
    rw [leaves_spliceL, leavesL_wrap]
    by_cases hi : i ∈ leavesL σ.tree
    · apply nodup_flatMap_splice _ _ _ hnd
      · exact List.nodup_singleton _
      · intro r hr
        rw [List.mem_singleton] at hr
        refine Or.inl (fun hm => ?_)
        have := hlt r hm
        omega
    · rw [flatMap_splice_id _ _ _ hi]
      exact hnd
  · intro j hj
    show j < σ.next + 1
    rw [show (wrapReplace cfg σ i).tree =
        spliceL i [.el cfg.tag cfg.cls cfg.inst [.txt σ.next]] σ.tree from rfl] at hj
    rw [leaves_spliceL, leavesL_wrap] at hj
    rcases flatMap_splice_subset _ _ _ j hj with h | h
    · have := hlt j h; omega
    · rw [List.mem_singleton] at h
      omega

theorem wrapMiddles_inv (cfg : MarkerCfg) (tms : List TextMapping)
    (σ : DState) (i e : Nat) (hwf : WFState σ) :
    StepInv σ (wrapMiddles cfg tms σ i e) := by
  rw [wrapMiddles]
  by_cases hie : i < e
  · simp only [hie, if_true]
    have h1 := wrapReplace_inv cfg σ (((tms.get? i).getD ⟨0, 0⟩).node) hwf
    have h2 := wrapMiddles_inv cfg tms _ (i + 1) e h1.2
    exact StepInv_trans h1 h2
  · simp only [hie, if_false]
    exact StepInv_refl σ hwf
termination_by e - i
decreasing_by
  simp_wf
  omega

theorem stepInv_cross (cfg : MarkerCfg) (tms : List TextMapping) (σ : DState)
    (a o1 b o2 i e : Nat) (hwf : WFState σ) :
    StepInv σ (wrapMiddles cfg tms
      (wrapReplace cfg
        (splitText (wrapReplace cfg (splitText σ a o1).1 (splitText σ a o1).2)
          b o2).1 b) i e) := by
  have h1 := splitText_inv σ a o1 hwf
  have h2 := wrapReplace_inv cfg (splitText σ a o1).1 (splitText σ a o1).2 h1.2
  have h3 := splitText_inv _ b o2 h2.2
  have h4 := wrapReplace_inv cfg _ b h3.2
  have h5 := wrapMiddles_inv cfg tms _ i e h4.2
  exact StepInv_trans h1 (StepInv_trans h2 (StepInv_trans h3
    (StepInv_trans h4 h5)))

theorem stepInv_single (cfg : MarkerCfg) (σ : DState) (a o1 o2 : Nat)
    (hwf : WFState σ) :
    StepInv σ (wrapReplace cfg
      (splitText (splitText σ a o1).1 (splitText σ a o1).2 o2).1
      (splitText σ a o1).2) := by
  have h1 := splitText_inv σ a o1 hwf
  have h2 := splitText_inv (splitText σ a o1).1 (splitText σ a o1).2 o2 h1.2
  have h3 := wrapReplace_inv cfg _ (splitText σ a o1).2 h2.2
  exact StepInv_trans h1 (StepInv_trans h2 h3)

theorem wrapRangeDeep_inv (cfg : MarkerCfg) (σ : DState)
    (tms : List TextMapping) (s : Nat) (e : Int) (hwf : WFState σ) :
    StepInv σ (wrapRangeDeep cfg σ tms s e) := by
  rw [wrapRangeDeep]
  split
  · exact StepInv_refl σ hwf
  · split
    · exact stepInv_cross cfg tms σ _ _ _ _ _ _ hwf
    · exact stepInv_single cfg σ _ _ _ hwf

theorem deepLoopGo_inv (cfg : MarkerCfg) (p : Pattern) (tms : List TextMapping) :
    ∀ fuel σ pos σ2, WFState σ → deepLoopGo cfg p tms fuel σ pos = some σ2 →
      textContentD σ2 = textContentD σ ∧ WFState σ2 := by
  intro fuel
  induction fuel with
  | zero => intro σ pos σ2 _ h; simp [deepLoopGo] at h
  | succ n ih =>
    intro σ pos σ2 hwf h
    rw [deepLoopGo] at h
    cases hf : p.findFrom (textContentD σ) pos with
    | none =>
      rw [hf] at h
      cases h
      exact ⟨rfl, hwf⟩
    | some m =>
      rw [hf] at h
      have hw := wrapRangeDeep_inv cfg σ tms m.start
        ((m.start : Int) + (m.len : Int) - 1) hwf
      have := ih _ _ _ hw.2 h
      exact ⟨this.1.trans hw.1, this.2⟩

/-- Deep mode preserves the container's text content: whenever the
`searchAndHighlightDeep` loop terminates, the text (hence the character
count) is exactly what it was. -/
theorem searchAndHighlightDeep_text (cfg : MarkerCfg) (p : Pattern)
    (fuel : Nat) (σ σ2 : DState) (hwf : WFState σ)
    (h : searchAndHighlightDeep cfg p fuel σ = some σ2) :
    textContentD σ2 = textContentD σ := by
  rw [searchAndHighlightDeep] at h
  by_cases he : textContentD σ = []
  · rw [if_pos he] at h
    cases h
    rfl
  · rw [if_neg he] at h
    exact (deepLoopGo_inv cfg p _ fuel σ 0 σ2 hwf h).1

/-- The early-return of `wrapRangeDeep`: an unresolvable start or end
offset leaves the state untouched — no split, no wrap, no store change. -/
theorem wrapRangeDeep_skip (cfg : MarkerCfg) (σ : DState)
    (tms : List TextMapping) (s : Nat) (e : Int)
    (h : findTextMappingIndex σ tms (s : Int) = -1 ∨
         findTextMappingIndex σ tms e = -1) :
    wrapRangeDeep cfg σ tms s e = σ := by
  rw [wrapRangeDeep]
  split
  · rfl
  · rename_i hn
    exact absurd h hn

theorem mapsGo_head_index (store : Nat → Str) :
    ∀ (ids : List Nat) (idx : Nat) (tm : TextMapping) (rest : List TextMapping),
      mapsGo store ids idx = tm :: rest → tm.index = idx := by
  intro ids
  induction ids with
  | nil => intro idx tm rest h; simp [mapsGo] at h
  | cons i is ih =>
    intro idx tm rest h
    rw [mapsGo] at h
    by_cases hw : hasNonWs (store i) = true
    · rw [if_pos hw] at h
      cases h
      rfl
    · rw [if_neg hw] at h
      exact ih idx tm rest h

theorem mapsGo_contiguous (store : Nat → Str) :
    ∀ (ids : List Nat) (idx k : Nat) (tm1 tm2 : TextMapping),
      (mapsGo store ids idx).get? k = some tm1 →
      (mapsGo store ids idx).get? (k + 1) = some tm2 →
      tm2.index = tm1.index + (store tm1.node).length := by
  intro ids
  induction ids with
  | nil => intro idx k tm1 tm2 h1 h2; simp [mapsGo] at h1
  | cons i is ih =>
    intro idx k tm1 tm2 h1 h2
    rw [mapsGo] at h1 h2
    by_cases hw : hasNonWs (store i) = true
    · rw [if_pos hw] at h1 h2
      cases k with
      | zero =>
        rw [List.get?_cons_zero] at h1
        rw [List.get?_cons_succ] at h2
        cases h1
        cases hm : mapsGo store is (idx + (store i).length) with
        | nil => rw [hm] at h2; simp at h2
        | cons tm rest =>
          rw [hm, List.get?_cons_zero] at h2
          cases h2
          exact mapsGo_head_index store is _ _ _ hm
      | succ k2 =>
        rw [List.get?_cons_succ] at h1 h2
        exact ih _ k2 tm1 tm2 h1 h2
    · rw [if_neg hw] at h1 h2
      exact ih idx k tm1 tm2 h1 h2

theorem mapsGo_concat (store : Nat → Str) :
    ∀ (ids : List Nat) (idx : Nat),
      (∀ i ∈ ids, hasNonWs (store i) = true) →
      ((mapsGo store ids idx).map (fun tm => store tm.node)).flatten =
        ((ids.map store).flatten) := by
  intro ids
  induction ids with
  | nil => intro idx _; rfl
  | cons i is ih =>
    intro idx hws
    rw [mapsGo]
    rw [if_pos (hws i (List.mem_cons_self i is))]
    rw [List.map_cons, List.map_cons, List.flatten_cons, List.flatten_cons]
    rw [ih _ (fun j hj => hws j (List.mem_cons_of_mem _ hj))]

/-- AST for the regex fragment relevant to this library: literal and
escaped characters, `.`, `*`, alternation, and (capturing) groups. -/
inductive Regex where
  | emptyStr
  | ch (c : Char)
  | dot
  | star (r : Regex)
  | cat (r1 r2 : Regex)
  | alt (r1 r2 : Regex)
  | group (r : Regex)
deriving Repr, DecidableEq

mutual

/-- Parse an alternation (`cat ('|' cat)*`). Fuel-indexed recursive
descent; `parseRegex` supplies ample fuel. -/
def parseAlt : Nat → Str → Option (Regex × Str)
  | 0, _ => none
  | f + 1, s =>
    match parseCat f s with
    | none => none
    | some (r, rest) =>
      match rest with
      | '|' :: rest2 =>
        match parseAlt f rest2 with
        | some (r2, rest3) => some (.alt r r2, rest3)
        | none => none
      | _ => some (r, rest)

/-- Parse a concatenation of pieces, stopping at `)`, `|` or the end. -/
def parseCat : Nat → Str → Option (Regex × Str)
  | 0, _ => none
  | f + 1, s =>
    match s with
    | [] => some (.emptyStr, [])
    | ')' :: _ => some (.emptyStr, s)
    | '|' :: _ => some (.emptyStr, s)
    | _ =>
      match parsePiece f s with
      | none => none
      | some (r, rest) =>
        match parseCat f rest with
        | some (r2, rest2) => some (.cat r r2, rest2)
        | none => none

/-- Parse an atom with an optional `*` quantifier. -/
def parsePiece : Nat → Str → Option (Regex × Str)
  | 0, _ => none
  | f + 1, s =>
    match parseAtom f s with
    | none => none
    | some (r, rest) =>
      match rest with
      | '*' :: rest2 => some (.star r, rest2)
      | _ => some (r, rest)

/-- Parse one atom: a group, an escaped character (matched literally),
`.`, or a plain non-metacharacter. -/
def parseAtom : Nat → Str → Option (Regex × Str)
  | 0, _ => none
  | f + 1, s =>
    match s with
    | '(' :: rest =>
      match parseAlt f rest with
      | some (r, ')' :: rest2) => some (.group r, rest2)
      | _ => none
    | '\\' :: c :: rest => some (.ch c, rest)
    | '.' :: rest => some (.dot, rest)
    | c :: rest => if isRegexMeta c then none else some (.ch c, rest)
    | [] => none

end

/-- Compile a regex source string (the text between the slashes of a
JavaScript `RegExp`) into the AST; `none` for syntax outside the
supported fragment. -/
def parseRegex (s : Str) : Option Regex :=
  match parseAlt (4 * s.length + 8) s with
  | some (r, []) => some r
  | _ => none

/-- Candidate match lengths of a regex at the start of `s`, in JavaScript
backtracking priority order (first alternative first, greedy `*`, and no
empty `*` iterations); the head is the length the engine reports.  The
fuel bounds `*` unrollings — `s.length` iterations of non-empty bodies
suffice. -/
def lensF : Nat → Regex → Str → List Nat
  | 0, _, _ => []
  | fuel + 1, r, s =>
    match r with
    | .emptyStr => [0]
    | .ch c =>
      match s with
      | d :: _ => if d = c then [1] else []
      | [] => []
    | .dot =>
      match s with
      | _ :: _ => [1]
      | [] => []
    | .alt r1 r2 => lensF fuel r1 s ++ lensF fuel r2 s
    | .cat r1 r2 =>
      (lensF fuel r1 s).flatMap (fun n => (lensF fuel r2 (s.drop n)).map (n + ·))
    | .group r1 => lensF fuel r1 s
    | .star r1 =>
      ((lensF fuel r1 s).filter (fun n => n ≠ 0)).flatMap
        (fun n => (lensF fuel (.star r1) (s.drop n)).map (n + ·)) ++ [0]

/-- Structural size of a regex, used to pick enough matcher fuel. -/
def regexSize : Regex → Nat
  | .emptyStr => 1
  | .ch _ => 1
  | .dot => 1
  | .star r => regexSize r + 1
  | .cat r1 r2 => regexSize r1 + regexSize r2 + 1
  | .alt r1 r2 => regexSize r1 + regexSize r2 + 1
  | .group r => regexSize r + 1

/-- Length of the match a JavaScript `RegExp` reports for this AST at the
start of `s`, if any. -/
def firstLenAt (r : Regex) (s : Str) : Option Nat :=
  (lensF ((s.length + 1) * (regexSize r + 1)) r s).head?

/-- Scan for the leftmost position at which the regex matches, as `exec`
does; returns (start, length). -/
def astScan (r : Regex) : Str → Nat → Option (Nat × Nat)
  | [], pos =>
    match firstLenAt r [] with
    | some n => some (pos, n)
    | none => none
  | c :: rest, pos =>
    match firstLenAt r (c :: rest) with
    | some n => some (pos, n)
    | none => astScan r rest (pos + 1)

/-- `Pattern` semantics of a compiled regex AST: first match at or after
`i`, with group 1 read as the whole match (the generated sources wrap the
whole alternation in one group). -/
def Pattern.ofRegexAst (r : Regex) : Pattern :=
  ⟨fun s i =>
    if s.length < i then none
    else (astScan r (s.drop i) i).map
      (fun pr => ⟨pr.1, pr.2, (s.drop pr.1).take pr.2⟩)⟩

/-- A JavaScript `RegExp` object as data: its `source` and the two flags
the library uses. -/
structure RegExpObj where
  source : Str
  global : Bool
  ignoreCase : Bool
deriving Repr, DecidableEq

/-- The `pattern` argument of `highlight`: a pre-built `RegExp`, a single
string, or an array of strings. -/
inductive HighlightPattern where
  | re (r : RegExpObj)
  | str (s : Str)
  | list (ts : List Str)

/-- `Array.prototype.join('|')`. -/
def joinPipe : List Str → Str
  | [] => []
  | [t] => t
  | t :: u :: rest => t ++ '|' :: joinPipe (u :: rest)

/-- `buildMergedRegex` (src/highlight.ts lines 124-137): a pre-built
`RegExp` is returned unmodified; otherwise the terms are escaped, joined
with `|`, wrapped in one capturing group, and flagged `g` or `gi`
according to `caseSensitive`; an empty term list yields no pattern. -/
def buildMergedRegex (caseSensitive : Bool) (pattern : HighlightPattern) :
    Option RegExpObj :=
  match pattern with
  | .re r => some r
  | .str s =>
    buildFromTerms caseSensitive [s]
  | .list ts =>
    buildFromTerms caseSensitive ts
where buildFromTerms (caseSensitive : Bool) (terms : List Str) : Option RegExpObj :=
  if terms.isEmpty then none
  else
    some ⟨'(' :: joinPipe (terms.map escapeRegExp) ++ [')'], true, !caseSensitive⟩

/-- Number of capturing groups in a regex source: unescaped `(`
occurrences (the generated fragment has no `(?:`). -/
def countCapturingGroups : Str → Nat
  | [] => 0
  | [c] => if c = '(' then 1 else 0
  | c :: d :: rest =>
    if c = '\\' then countCapturingGroups rest
    else if c = '(' then 1 + countCapturingGroups (d :: rest)
    else countCapturingGroups (d :: rest)

/-- Scanner attesting that every regex metacharacter in a string is
escaped: metacharacters appear only immediately after a backslash. -/
def allMetaEscaped : Str → Bool
  | [] => true
  | [c] => !isRegexMeta c
  | c :: d :: rest =>
    if c = '\\' then allMetaEscaped rest
    else !isRegexMeta c && allMetaEscaped (d :: rest)

/-- `highlight` (src/highlight.ts lines 73-88), with container discovery
and per-container rewriting abstracted into `applyToContainers`: when
`buildMergedRegex` yields no pattern the function returns before touching
any container. -/
def highlight (caseSensitive : Bool)
    (applyToContainers : RegExpObj → List HNode → List HNode)
    (pattern : HighlightPattern) (containers : List HNode) : List HNode :=
  match buildMergedRegex caseSensitive pattern with
  | none => containers
  | some r => applyToContainers r containers

theorem allMetaEscaped_escapeRegExp (t : Str) :
    allMetaEscaped (escapeRegExp t) = true := by
  induction t with
  | nil => rfl
  | cons c rest ih =>
    rw [escapeRegExp]
    by_cases hm : isRegexMeta c = true
    · rw [if_pos hm]
      rw [allMetaEscaped]
      simp only [if_pos rfl]
      exact ih
    · rw [if_neg hm]
      cases he : escapeRegExp rest with
      | nil =>
        rw [allMetaEscaped]
        simp [hm]
      | cons d rest2 =>
        rw [allMetaEscaped]
        have hcb : ¬ c = '\\' := by
          intro hcc
          rw [hcc] at hm
          exact hm (by decide)
        rw [if_neg hcb]
        rw [← he, ih]
        simp [hm]

theorem countCapturingGroups_cons_cons (c d : Char) (rest : Str) :
    countCapturingGroups (c :: d :: rest) =
      if c = '\\' then countCapturingGroups rest
      else if c = '(' then 1 + countCapturingGroups (d :: rest)
      else countCapturingGroups (d :: rest) := by
  rw [countCapturingGroups]

theorem countCapturingGroups_escape_append (t rest : Str) :
    countCapturingGroups (escapeRegExp t ++ rest) = countCapturingGroups rest := by
  induction t with
  | nil => rfl
  | cons c t2 ih =>
    rw [escapeRegExp]
    by_cases hm : isRegexMeta c = true
    · rw [if_pos hm]
      rw [List.cons_append, List.cons_append, countCapturingGroups_cons_cons]
      rw [if_pos rfl]
      exact ih
    · rw [if_neg hm]
      rw [List.cons_append]
      have hcb : ¬ c = '\\' := by
        intro hcc
        rw [hcc] at hm
        exact hm (by decide)
      have hcp : ¬ c = '(' := by
        intro hcc
        rw [hcc] at hm
        exact hm (by decide)
      cases he : escapeRegExp t2 ++ rest with
      | nil =>
        rw [he] at ih
        rw [countCapturingGroups]
        rw [if_neg hcp]
        exact ih
      | cons d rest2 =>
        rw [he] at ih
        rw [countCapturingGroups_cons_cons, if_neg hcb, if_neg hcp]
        exact ih

theorem countCapturingGroups_joinPipe (ts : List Str) (rest : Str) :
    countCapturingGroups (joinPipe (ts.map escapeRegExp) ++ rest) =
      countCapturingGroups rest := by
  induction ts with
  | nil => rfl
  | cons t ts2 ih =>
    cases ts2 with
    | nil =>
      rw [List.map_cons, List.map_nil, joinPipe]
      exact countCapturingGroups_escape_append t rest
    | cons u ts3 =>
      rw [List.map_cons, List.map_cons, joinPipe]
      rw [List.append_assoc, List.cons_append]
      rw [countCapturingGroups_escape_append]
      cases hj : joinPipe (escapeRegExp u :: ts3.map escapeRegExp) ++ rest with
      | nil =>
        rw [List.map_cons] at ih
        rw [hj] at ih
        rw [countCapturingGroups]
        exact ih
      | cons d rest2 =>
        rw [List.map_cons] at ih
        rw [hj] at ih
        rw [countCapturingGroups_cons_cons]
        rw [if_neg (by decide : ¬ '|' = '\\'), if_neg (by decide : ¬ '|' = '(')]
        exact ih

theorem countCapturingGroups_wrapped (inner : Str)
    (h : countCapturingGroups (inner ++ [')']) = 0) :
    countCapturingGroups ('(' :: inner ++ [')']) = 1 := by
  cases hi : inner ++ [')'] with
  | nil => simp at hi
  | cons d rest =>
    rw [List.cons_append, hi, countCapturingGroups_cons_cons]
    rw [if_neg (by decide : ¬ '(' = '\\'), if_pos rfl]
    rw [← hi, h]

/-- Contents of the indexed leaves, in mapping order. -/
def mappingContents (σ : DState) : List Str :=
  (buildTextMappings σ).map (fun tm => σ.store tm.node)

theorem buildTextMappings_head_index (σ : DState) (tm : TextMapping)
    (rest : List TextMapping) (h : buildTextMappings σ = tm :: rest) :
    tm.index = 0 :=
  mapsGo_head_index σ.store (leavesL σ.tree) 0 tm rest h

/-- Default marker configuration of the library (`tagName: span`,
`className: highlight-text`) for instance id `0`. -/
def demoCfg : MarkerCfg :=
  ⟨"span".toList, "highlight-text".toList, "0".toList⟩

/-- The behaviour of the pre-built pattern `/a(b)/g` on the text `"ab"`:
one match covering the whole string whose first capture group holds only
`"b"`. -/
def badGroupPattern : Pattern :=
  ⟨fun s i => if s = ['a', 'b'] ∧ i = 0 then some ⟨0, 2, ['b']⟩ else none⟩

/-- A container whose text is `"ab"`. -/
def abDoc : HNode :=
  .helem "div".toList "highlightable".toList none [.htext ['a', 'b']]

/-- A deep-mode container with one text node `"ab"`. -/
def demoDeepState : DState :=
  ⟨[.txt 0], fun j => if j = 0 then ['a', 'b'] else [], 1⟩

/-- The merged pattern for the single term `"b"` (case-insensitive). -/
def demoPatternB : Pattern := litPattern true [['b']]

/-- The merged pattern for the single term `"ab"` (case-insensitive). -/
def demoPatternAB : Pattern := litPattern true [['a', 'b']]

/-- A container whose text is `"xaby"`. -/
def demoShallowDoc : HNode :=
  .helem "div".toList "highlightable".toList none [.htext "xaby".toList]

/-- The merged pattern for the single term `"a"` (case-insensitive). -/
def demoPatternA : Pattern := litPattern true [['a']]

/-- A container whose text is `"a<b>c"`: page text holding
markup-significant characters. -/
def ltDoc : HNode :=
  .helem "div".toList "highlightable".toList none [.htext "a<b>c".toList]

/-- The merged pattern of the empty search term: the regex `()`. -/
def emptyAltPattern : Pattern :=
  Pattern.ofRegexAst ((parseRegex ['(', ')']).getD .emptyStr)

/-- A deep-mode container with text leaves `"ab"` and `"cd"`, the second
nested one level down. -/
def c9State : DState :=
  ⟨[.txt 0, .el "b".toList [] [] [.txt 1]],
   fun j => if j = 0 then ['a', 'b'] else if j = 1 then ['c', 'd'] else [],
   2⟩

/-- The merged pattern for the single term `"cd"`. -/
def c9Pattern : Pattern := litPattern true [['c', 'd']]

/-- A container holding one Marker of instance `0` and one of instance
`1`, sharing the marker class, with surrounding text. -/
def c4Doc : HNode :=
  .helem "div".toList "highlightable".toList none
    [.htext ['x'],
     .helem "span".toList "highlight-text".toList (some "0".toList) [.htext ['A']],
     .helem "span".toList "highlight-text".toList (some "1".toList) [.htext ['B']],
     .htext ['y']]

/-- The marker configuration of a second instance sharing `demoCfg`'s
class. -/
def demoCfg2 : MarkerCfg :=
  ⟨"span".toList, "highlight-text".toList, "1".toList⟩

/-- C1.  The claim quantifies over every pattern and every container.  It
fails twice over.  First, the shallow rewrite substitutes capture group 1
(`$1`) into the generated markup, so a pre-built pattern whose first
group captures only part of the match drops characters: with the
behaviour of `/a(b)/g` on a container with text `"ab"`, the container
holds 1 character instead of 2 after `searchAndHighlight`.  Second, the
replacement string is re-parsed as HTML by `createContextualFragment`, so
markup-significant characters in the page text are consumed as markup:
highlighting the term `"a"` in a container whose text is `"a<b>c"` turns
the literal `<b>` into an element and leaves 2 characters of the original
5. -/
theorem C1_counterexample :
    ((textContentN (searchAndHighlight demoCfg badGroupPattern abDoc)).length = 1 ∧
      (textContentN abDoc).length = 2) ∧
    ((textContentN (searchAndHighlight demoCfg demoPatternA ltDoc)).length = 2 ∧
      (textContentN ltDoc).length = 5) := by
  refine ⟨⟨?_, ?_⟩, ?_, ?_⟩ <;> decide

/-- C1 (amended).  Character count of a container is invariant under a
highlight pass: in deep mode for every pattern (whenever the exec loop
terminates), and in shallow mode for every pattern whose first capture
group always captures the whole match — in particular every pattern
`buildMergedRegex` builds from strings — provided the marker
configuration round-trips through the HTML parse (non-empty all-letter
tag, quote-free attribute values; the defaults qualify) and no text in
the container contains the markup-significant characters `<` or `&`. -/
theorem C1_theorem :
    (∀ (cfg : MarkerCfg) (p : Pattern) (fuel : Nat) (σ σ2 : DState),
      WFState σ → searchAndHighlightDeep cfg p fuel σ = some σ2 →
      (textContentD σ2).length = (textContentD σ).length) ∧
    (∀ (cfg : MarkerCfg) (p : Pattern), p.WF → p.CapturesWhole →
      cfgOK cfg = true → ∀ n : HNode, noMarkupN n = true →
        (textContentN (searchAndHighlight cfg p n)).length =
          (textContentN n).length) := by
  constructor
  · intro cfg p fuel σ σ2 hwf h
    rw [searchAndHighlightDeep_text cfg p fuel σ σ2 hwf h]
  · intro cfg p hwf hcw hcfg n hm
    rw [textContent_searchAndHighlight cfg p hwf hcw hcfg n hm]

/-- C1 witness: both parts of the amended claim evaluated on concrete
inputs — a deep pass over a container with text `"ab"` and pattern `"b"`,
and a shallow pass with the same pattern. -/
theorem C1_witness :
    (textContentD ((searchAndHighlightDeep demoCfg demoPatternB 5
        demoDeepState).getD demoDeepState)).length =
      (textContentD demoDeepState).length ∧
    (textContentN (searchAndHighlight demoCfg demoPatternB demoShallowDoc)).length =
      (textContentN demoShallowDoc).length := by
  constructor
  · exact C1_theorem.1 demoCfg demoPatternB 5 demoDeepState
      ((searchAndHighlightDeep demoCfg demoPatternB 5 demoDeepState).getD demoDeepState)
      ⟨by decide, by decide⟩ rfl
  · exact C1_theorem.2 demoCfg demoPatternB (litPattern_wf _ _)
      (litPattern_capturesWhole _ _) (by decide) demoShallowDoc (by decide)

/-- C2.  As stated the claim fails for the same reasons as C1: a
pre-built pattern with a partial capture group loses text during the
highlight pass (with `/a(b)/g` on text `"ab"` the round trip leaves
`"b"`), and markup-significant characters in the page text are consumed
by the HTML re-parse (highlighting `"a"` in `"a<b>c"` leaves `"ac"` after
highlight-then-remove); `removeHighlights` cannot bring either back. -/
theorem C2_counterexample :
    (textContentN (removeHighlights demoCfg
      (searchAndHighlight demoCfg badGroupPattern abDoc)) = ['b'] ∧
      textContentN abDoc = ['a', 'b']) ∧
    (textContentN (removeHighlights demoCfg
      (searchAndHighlight demoCfg demoPatternA ltDoc)) = "ac".toList ∧
      textContentN ltDoc = "a<b>c".toList) := by
  refine ⟨⟨?_, ?_⟩, ?_, ?_⟩ <;> decide

/-- C2 (amended).  In shallow mode, for every pattern whose first capture
group always equals the whole match (all string-built patterns), every
marker configuration that round-trips through the HTML parse (the
defaults qualify), and every container that is in normal form and free of
the markup-significant characters `<` and `&` before highlighting,
`removeHighlights` after `highlight` restores the container's plain text
exactly and leaves the container in normal form: no residual empty text
nodes and no adjacent text nodes left unmerged. -/
theorem C2_theorem (cfg : MarkerCfg) (p : Pattern) (hwf : p.WF)
    (hcw : p.CapturesWhole) (hcfg : cfgOK cfg = true) (n : HNode)
    (hn : isNormN n = true) (hm : noMarkupN n = true) :
    textContentN (removeHighlights cfg (searchAndHighlight cfg p n)) =
      textContentN n ∧
    isNormN (removeHighlights cfg (searchAndHighlight cfg p n)) = true := by
  constructor
  · rw [textContent_removeHighlights,
      textContent_searchAndHighlight cfg p hwf hcw hcfg n hm]
  · exact removeHighlights_shallow_norm cfg p hwf hcw hcfg n hn hm

/-- C2 witness: the round trip on a container with text `"xaby"` and the
string-built pattern `"ab"`. -/
theorem C2_witness :
    textContentN (removeHighlights demoCfg
      (searchAndHighlight demoCfg demoPatternAB demoShallowDoc)) =
      textContentN demoShallowDoc ∧
    isNormN (removeHighlights demoCfg
      (searchAndHighlight demoCfg demoPatternAB demoShallowDoc)) = true :=
  C2_theorem demoCfg demoPatternAB (litPattern_wf _ _)
    (litPattern_capturesWhole _ _) (by decide) demoShallowDoc (by decide) (by decide)

/-- C3.  The claim is right about the intent and wrong about the code:
`searchAndHighlightDeep`'s `while ((match = regex.exec(...)))` loop never
advances `lastIndex` past a zero-length match, so a pattern that matches
the empty string — here the merged regex `()` built from the term list
`[""]` — makes the loop re-find the same empty match forever.  For every
fuel bound the exec loop on container text `"a"` fails to terminate. -/
theorem C3_theorem :
    buildMergedRegex false (.list [[]]) = some ⟨['(', ')'], true, true⟩ ∧
    parseRegex ['(', ')'] = some (.cat (.group .emptyStr) .emptyStr) ∧
    emptyAltPattern.findFrom ['a'] 0 = some ⟨0, 0, []⟩ ∧
    ∀ fuel, execLoopSpans emptyAltPattern ['a'] fuel 0 = none := by
  refine ⟨rfl, rfl, rfl, ?_⟩
  intro fuel
  induction fuel with
  | zero => rfl
  | succ n ih =>
    rw [execLoopSpans]
    rw [show emptyAltPattern.findFrom ['a'] 0 = some ⟨0, 0, []⟩ from rfl]
    show (execLoopSpans emptyAltPattern ['a'] n 0).map (List.cons ⟨0, 0, []⟩) = none
    rw [ih]
    rfl

/-- C4.  Removal is scoped by the owning-instance attribute: with two
instances sharing the marker class but holding different instance ids,
`removeHighlights` of the first leaves no Marker of the first instance
below the container, and preserves every Marker of the second instance
together with the text inside it. -/
theorem C4_theorem (tag1 tag2 cls inst1 inst2 : Str) (hinst : inst2 ≠ inst1)
    (t c : Str) (a : Option Str) (ch : List HNode) :
    collectMarkersL ⟨tag1, cls, inst1⟩
      (childrenOf (removeHighlights ⟨tag1, cls, inst1⟩ (.helem t c a ch))) = [] ∧
    (collectMarkersN ⟨tag2, cls, inst2⟩
        (removeHighlights ⟨tag1, cls, inst1⟩ (.helem t c a ch))).map textContentN =
      (collectMarkersN ⟨tag2, cls, inst2⟩ (.helem t c a ch)).map textContentN := by
  constructor
  · exact collect_removeHighlights_self _ t c a ch
  · exact collect_removeHighlights_other ⟨tag1, cls, inst1⟩ ⟨tag2, cls, inst2⟩
      (Or.inr hinst) (.helem t c a ch)

/-- C4 witness: a container holding one Marker of instance `0` and one of
instance `1` (same class); removing instance `0`'s highlights leaves no
instance-`0` Marker and keeps instance `1`'s Marker with its text `"B"`. -/
theorem C4_witness :
    ("0".toList : Str) ≠ "1".toList ∧
    (collectMarkersL demoCfg (childrenOf (removeHighlights demoCfg c4Doc)) = [] ∧
     (collectMarkersN demoCfg2 (removeHighlights demoCfg c4Doc)).map textContentN =
       (collectMarkersN demoCfg2 c4Doc).map textContentN) := by
  refine ⟨by decide, ?_⟩
  exact C4_theorem "span".toList "span".toList "highlight-text".toList
    "0".toList "1".toList (by decide) "div".toList "highlightable".toList none
    [.htext ['x'],
     .helem "span".toList "highlight-text".toList (some "0".toList) [.htext ['A']],
     .helem "span".toList "highlight-text".toList (some "1".toList) [.htext ['B']],
     .htext ['y']]

/-- C5.  Every regex metacharacter of a literal term is escaped by
`escapeRegExp` before being embedded in the alternation; concretely, the
pattern built from the literal string `"a.b*c"` compiles to a regex that
produces exactly one match on the text `"a.b*c"`, covering the whole
5-character literal, while the unescaped reading `(a.b*c)` — `a`, any
character, `b`, zero-or-more, `c` — matches nowhere in that text. -/
theorem C5_theorem :
    (∀ t : Str, allMetaEscaped (escapeRegExp t) = true) ∧
    buildMergedRegex false (.str "a.b*c".toList) =
      some ⟨"(a\\.b\\*c)".toList, true, true⟩ ∧
    (∃ ast, parseRegex "(a\\.b\\*c)".toList = some ast ∧
      matchSpans (Pattern.ofRegexAst ast) "a.b*c".toList =
        [⟨0, 5, "a.b*c".toList⟩]) ∧
    (∃ astRaw, parseRegex "(a.b*c)".toList = some astRaw ∧
      astScan astRaw "a.b*c".toList 0 = none) := by
  refine ⟨allMetaEscaped_escapeRegExp, by decide, ⟨_, rfl, by decide⟩,
    ⟨_, rfl, by decide⟩⟩

/-- C6.  An empty term list yields no pattern and `highlight` is a
complete no-op: it returns before resolving containers, leaving every
container untouched, whatever the per-container rewriting would do. -/
theorem C6_theorem (caseSensitive : Bool)
    (applyToContainers : RegExpObj → List HNode → List HNode)
    (containers : List HNode) :
    buildMergedRegex caseSensitive (.list []) = none ∧
    highlight caseSensitive applyToContainers (.list []) containers =
      containers := by
  constructor
  · rfl
  · rfl

/-- C7.  When `findTextMappingIndex` cannot resolve the start or the end
offset of a match span, `wrapRangeDeep` returns before any split, wrap or
replace: the document state is exactly unchanged (and, the embedding
being total, no error is raised); the enclosing loop goes on to the next
span. -/
theorem C7_theorem (cfg : MarkerCfg) (σ : DState) (tms : List TextMapping)
    (s : Nat) (e : Int)
    (h : findTextMappingIndex σ tms (s : Int) = -1 ∨
         findTextMappingIndex σ tms e = -1) :
    wrapRangeDeep cfg σ tms s e = σ :=
  wrapRangeDeep_skip cfg σ tms s e h

/-- C7 witness: a span starting at offset 5 in a container whose only
mapping covers `[0, 2)` resolves to `-1`, and `wrapRangeDeep` leaves the
state untouched. -/
theorem C7_witness :
    wrapRangeDeep demoCfg demoDeepState [⟨0, 0⟩] 5 5 = demoDeepState :=
  C7_theorem demoCfg demoDeepState [⟨0, 0⟩] 5 5 (Or.inl (by decide))

/-- C8.  The claim fails for pre-built patterns: `buildMergedRegex`
returns a pre-built `RegExp` unmodified, so a pattern like `/abc/g` — no
capturing group at all — flows downstream although the contract demands
one. -/
theorem C8_counterexample :
    buildMergedRegex false (.re ⟨"abc".toList, true, false⟩) =
      some ⟨"abc".toList, true, false⟩ ∧
    countCapturingGroups "abc".toList = 0 := by
  constructor <;> decide

/-- C8 (amended).  Patterns the builder constructs from a term or a
non-empty term list always have exactly one capturing group wrapping the
whole alternation — the source is `(` ++ escaped alternation ++ `)` and
the escaped alternation contributes no capturing group; a pre-built
pattern object is returned unmodified and need not contain one. -/
theorem C8_theorem (caseSensitive : Bool) (ts : List Str) (h : ts ≠ [])
    (s : Str) :
    buildMergedRegex caseSensitive (.list ts) =
      some ⟨'(' :: joinPipe (ts.map escapeRegExp) ++ [')'], true, !caseSensitive⟩ ∧
    countCapturingGroups ('(' :: joinPipe (ts.map escapeRegExp) ++ [')']) = 1 ∧
    buildMergedRegex caseSensitive (.str s) =
      some ⟨'(' :: escapeRegExp s ++ [')'], true, !caseSensitive⟩ ∧
    countCapturingGroups ('(' :: escapeRegExp s ++ [')']) = 1 := by
  refine ⟨?_, ?_, ?_, ?_⟩
  · rw [buildMergedRegex]
    rw [buildMergedRegex.buildFromTerms]
    rw [if_neg (by simpa using h)]
  · apply countCapturingGroups_wrapped
    exact countCapturingGroups_joinPipe ts [')']
  · rfl
  · apply countCapturingGroups_wrapped
    have := countCapturingGroups_joinPipe [s] [')']
    rw [List.map_cons, List.map_nil, joinPipe] at this
    exact this

/-- C8 witness: the amended claim at the term list `["ab"]` and single
term `"x"`. -/
theorem C8_witness :
    ([['a', 'b']] : List Str) ≠ [] ∧
    (buildMergedRegex false (.list [['a', 'b']]) =
        some ⟨'(' :: joinPipe ([['a', 'b']].map escapeRegExp) ++ [')'], true, true⟩ ∧
      countCapturingGroups
        ('(' :: joinPipe ([['a', 'b']].map escapeRegExp) ++ [')']) = 1 ∧
      buildMergedRegex false (.str ['x']) =
        some ⟨'(' :: escapeRegExp ['x'] ++ [')'], true, true⟩ ∧
      countCapturingGroups ('(' :: escapeRegExp ['x'] ++ [')']) = 1) :=
  ⟨by decide, C8_theorem false [['a', 'b']] (by decide) ['x']⟩

/-- C9.  In deep mode the indexer rejects whitespace-only leaves while
the matcher scans the full `textContent`; when no leaf is
whitespace-only the two coordinate systems agree: the concatenated
mapping contents equal the scanned text, the first mapping starts at
offset 0, consecutive mappings are contiguous
(`mapping[k+1].index = mapping[k].index + length(mapping[k])`), and every
match of a well-formed pattern lies inside the mapping extent. -/
theorem C9_theorem (σ : DState) (p : Pattern) (hwf : p.WF)
    (hws : ∀ i ∈ leavesL σ.tree, hasNonWs (σ.store i) = true) :
    (mappingContents σ).flatten = textContentD σ ∧
    (∀ tm rest, buildTextMappings σ = tm :: rest → tm.index = 0) ∧
    (∀ k tm1 tm2, (buildTextMappings σ).get? k = some tm1 →
      (buildTextMappings σ).get? (k + 1) = some tm2 →
      tm2.index = tm1.index + (σ.store tm1.node).length) ∧
    (∀ i m, p.findFrom (textContentD σ) i = some m →
      m.start + m.len ≤ ((mappingContents σ).flatten).length) := by
  have hconcat : (mappingContents σ).flatten = textContentD σ :=
    mapsGo_concat σ.store (leavesL σ.tree) 0 hws
  refine ⟨hconcat, ?_, ?_, ?_⟩
  · exact fun tm rest h => buildTextMappings_head_index σ tm rest h
  · exact fun k tm1 tm2 h1 h2 =>
      mapsGo_contiguous σ.store (leavesL σ.tree) 0 k tm1 tm2 h1 h2
  · intro i m hm
    have := (hwf _ i m hm).2
    rw [hconcat]
    exact this

/-- C9 witness: a container with leaves `"ab"` and `"cd"` (no
whitespace-only leaf) and the pattern `"cd"`: the mappings are
`[(0,0), (1,2)]`, contiguous from offset 0, the concatenation equals the
scanned text `"abcd"`, and the match at `[2,4)` lies inside the extent. -/
theorem C9_witness :
    (mappingContents c9State).flatten = textContentD c9State ∧
    (⟨0, 0⟩ : TextMapping).index = 0 ∧
    (⟨1, 2⟩ : TextMapping).index =
      (⟨0, 0⟩ : TextMapping).index + (c9State.store 0).length ∧
    2 + 2 ≤ ((mappingContents c9State).flatten).length := by
  have h := C9_theorem c9State c9Pattern (litPattern_wf _ _) (by decide)
  refine ⟨h.1, h.2.1 ⟨0, 0⟩ [⟨1, 2⟩] (by decide), ?_, ?_⟩
  · exact h.2.2.1 0 ⟨0, 0⟩ ⟨1, 2⟩ (by decide) (by decide)
  · exact h.2.2.2 0 ⟨2, 2, ['c', 'd']⟩ (by decide)

/-- C10.  `removeHighlights` is idempotent: a second call finds no Marker
carrying this instance's class and attribute and changes nothing. -/
theorem C10_theorem (cfg : MarkerCfg) (n : HNode) :
    removeHighlights cfg (removeHighlights cfg n) = removeHighlights cfg n :=
  removeHighlights_idem cfg n
